import Mathlib

/-!
Shallow embedding of the tiled Gaussian-process algorithms of GPXPy
(src/hpx_py11/cpp_code/include/gp_headers/tiled_algorithms_cpu.hpp,
src/core/src/adapter_cublas.cpp, src/core/include/tiled_algorithms_gpu.hpp),
together with theorems checking the specification's claims against it.
-/

namespace GPXPy

/-! ### Kernel-invocation trace of the tiled right-looking Cholesky

The tiled algorithms issue kernel invocations through hpx dataflow calls; the
arguments of each dataflow call are the grid slots the kernel reads, and the
slot the returned future is stored into is the slot it writes.  The trace of
invocations, in issue order, is a faithful embedding of the loop nest of
right_looking_cholesky_tiled_mkl (tiled_algorithms_cpu.hpp lines 12-38). -/

/-- Kernel kinds issued by the tiled Cholesky factorization. -/
inductive KKind
  | potrf
  | trsm
  | syrk
  | gemm
deriving DecidableEq

/-- One kernel invocation: its kind, the grid slot whose future it overwrites,
and the grid slots whose futures it consumes (the dataflow arguments). -/
structure KInv where
  kind : KKind
  wr : ℕ × ℕ
  rd : List (ℕ × ℕ)
deriving DecidableEq

/-- POTRF of diagonal tile (k,k), in place. -/
def potrfInv (k : ℕ) : KInv := ⟨.potrf, (k, k), [(k, k)]⟩

/-- TRSM of panel tile (m,k) against the freshly factored diagonal (k,k). -/
def trsmInv (k m : ℕ) : KInv := ⟨.trsm, (m, k), [(k, k), (m, k)]⟩

/-- SYRK rank update of diagonal tile (m,m) using panel tile (m,k). -/
def syrkInv (k m : ℕ) : KInv := ⟨.syrk, (m, m), [(m, m), (m, k)]⟩

/-- GEMM update of tile (m,n) using panel tiles (m,k) and (n,k). -/
def gemmInv (k m n : ℕ) : KInv := ⟨.gemm, (m, n), [(m, k), (n, k), (m, n)]⟩

/-- The TRSM (panel) invocations of stage k in issue order
(tiled_algorithms_cpu.hpp lines 21-25: for m = k+1 .. n_tiles-1). -/
def stagePanels (n_tiles k : ℕ) : List KInv :=
  (List.range' (k + 1) (n_tiles - (k + 1))).map (trsmInv k)

/-- The SYRK/GEMM (update) invocations of stage k in issue order
(tiled_algorithms_cpu.hpp lines 26-36: for m = k+1 .. n_tiles-1, one SYRK on
(m,m) then one GEMM on (m,n) for each n = k+1 .. m-1). -/
def stageUpdates (n_tiles k : ℕ) : List KInv :=
  (List.range' (k + 1) (n_tiles - (k + 1))).flatMap fun m =>
    syrkInv k m :: (List.range' (k + 1) (m - (k + 1))).map (gemmInv k m)

/-- All invocations of stage k of the right-looking tiled Cholesky, in issue
order: the POTRF, then the panel TRSMs, then the SYRK/GEMM updates. -/
def choleskyStage (n_tiles k : ℕ) : List KInv :=
  potrfInv k :: (stagePanels n_tiles k ++ stageUpdates n_tiles k)

/-- Invocation trace of right_looking_cholesky_tiled_mkl
(tiled_algorithms_cpu.hpp lines 12-38): stages k = 0 .. n_tiles-1 in order. -/
def right_looking_cholesky_tiled_mkl (n_tiles : ℕ) : List KInv :=
  (List.range n_tiles).flatMap (choleskyStage n_tiles)

/-- Stage-k invocation pattern as worded by the claim: first one factorize
(POTRF) of diagonal tile (k,k); then for each m > k one TRSM of panel tile
(m,k) reading the freshly factored (k,k) tile; then for each m > k one SYRK of
diagonal tile (m,m) using panel tile (m,k), and for each n with k < n < m one
GEMM of tile (m,n) using panel tiles (m,k) and (n,k). -/
def claimStage (n_tiles k : ℕ) : List KInv :=
  potrfInv k ::
    (((List.range n_tiles).filter fun m => decide (k < m)).map (trsmInv k) ++
      ((List.range n_tiles).filter fun m => decide (k < m)).flatMap fun m =>
        syrkInv k m :: ((List.range m).filter fun n => decide (k < n)).map (gemmInv k m))

/-- The whole invocation pattern the claim describes: stages 0 .. n_tiles-1. -/
def claimTrace (n_tiles : ℕ) : List KInv :=
  (List.range n_tiles).flatMap (claimStage n_tiles)

/-- Two invocations are independent when neither writes a slot the other one
reads or writes. -/
def Indep (a b : KInv) : Prop :=
  a.wr ∉ b.rd ∧ b.wr ∉ a.rd ∧ a.wr ≠ b.wr

instance (a b : KInv) : Decidable (Indep a b) := by
  unfold Indep
  infer_instance

/-! ### The factorization kernel of the cuBLAS adapter

The external factorization routine called by potrf (cusolverDnXpotrf; the CPU
counterpart mkl_potrf of mkl_adapter.hpp is not in src) reports positive
definiteness through an info value.  We model its pivot test exactly, in
square-root-free form over the rationals: the value the factorization tests
against zero at column j (a_jj minus the accumulated squares of the computed
row) equals the j-th pivot d_j of the LDL^T recurrence, so the info result is
the 1-based index of the first non-positive d_j. -/

/-- One column step of the square-root-free Cholesky (LDL^T) recurrence:
given the previously computed columns with their pivots, produce column j's
multiplier column and its pivot d_j. -/
def ldlNext (A : ℕ → ℕ → ℚ) (cols : List ((ℕ → ℚ) × ℚ)) (j : ℕ) : (ℕ → ℚ) × ℚ :=
  let d : ℚ := A j j - (cols.map fun cd => cd.1 j ^ 2 * cd.2).sum
  (fun i => (A i j - (cols.map fun cd => cd.1 i * cd.1 j * cd.2).sum) / d, d)

/-- All n columns of the LDL^T recurrence of an n x n tile, left to right. -/
def ldlCols (A : ℕ → ℕ → ℚ) (n : ℕ) : List ((ℕ → ℚ) × ℚ) :=
  (List.range n).foldl (fun cols j => cols ++ [ldlNext A cols j]) []

/-- One-based index of the first non-positive entry of a pivot list (0 when
all pivots are positive), accumulating the already-scanned count. -/
def firstNonposIdx : List ℚ → ℕ → ℕ
  | [], _ => 0
  | d :: ds, j => if d ≤ 0 then j + 1 else firstNonposIdx ds (j + 1)

/-- Modelled from the spec: the factorization routine "fails with
NotPositiveDefinite if a pivot is non-positive"; the external routine
(cusolverDnXpotrf here, mkl_potrf on the CPU path, neither in src) reports the
1-based index of the first non-positive Cholesky pivot, 0 when the tile is
positive definite. -/
def potrfInfo (A : ℕ → ℕ → ℚ) (n : ℕ) : ℕ :=
  firstNonposIdx ((ldlCols A n).map (fun cd => cd.2)) 0

/-- Error kind of the factorize kernel per the spec. -/
inductive KernelError
  | NotPositiveDefinite
deriving DecidableEq

/-- Embedding of potrf (adapter_cublas.cpp lines 21-73): it runs the device
factorization into the tile buffer, synchronizes the stream, frees d_info
without ever reading it, and returns the buffer wrapped in a ready future.
The info result of the factorization (modelled by potrfInfo) is computed and
discarded; there is no code path that raises NotPositiveDefinite.  The numeric
contents of the returned buffer (the partial factor, irrational in general)
are not needed by any claim and the buffer is abstracted by its input tile. -/
def potrf (A : ℕ → ℕ → ℚ) (n : ℕ) : Except KernelError (ℕ → ℕ → ℚ) :=
  let _info : ℕ := potrfInfo A n
  Except.ok A

/-- The non-positive-definite 2 x 2 example tile [[1,2],[2,1]] of the spec. -/
def tile21 : ℕ → ℕ → ℚ := fun i j => if i = j then 1 else 2

/-! ### Hyperparameter optimization (Adam)

update_hyperparameter and update_noise_variance (tiled_algorithms_cpu.hpp
lines 265-338) thread their state through C references: the hyperparameter
array (0 lengthscale, 1 vertical lengthscale, 2 noise variance, 3 learning
rate, 4 beta1, 5 beta2, 6 epsilon), and the per-parameter Adam moment vectors
m_T and v_T.  The scalar kernels they schedule live in gp_functions_grad.hpp,
which is not in src; those are modelled from the spec and marked as such.
Doubles are idealized as exact reals. -/

/-- Optimizer state mutated by the update routines. -/
structure AdamState where
  hyper : ℕ → ℝ
  mT : ℕ → ℝ
  vT : ℕ → ℝ

/-- Error raised by the optimizer entry points. -/
inductive OptError
  | invalidArgument
deriving DecidableEq

/-- Kernel invocations scheduled by the optimizer entry points. -/
inductive OptEv
  | genZerosDiag (d : ℕ)
  | gemmDiag (i j : ℕ)
  | scalarKernel (tag : ℕ)

/-- Modelled from the spec: to_unconstrained (gp_functions_grad.hpp, not in
src) maps a strictly positive hyperparameter into unconstrained space, "log
for strictly-positive parameters". -/
noncomputable def to_unconstrained (p : ℝ) (_isNoise : Bool) : ℝ := Real.log p

/-- Modelled from the spec: to_constrained (gp_functions_grad.hpp, not in src)
maps back to the constrained (strictly positive) space, inverting the log. -/
noncomputable def to_constrained (p : ℝ) (_isNoise : Bool) : ℝ := Real.exp p

/-- Modelled from the spec: biased first-moment update m = beta1 * m +
(1 - beta1) * g (update_fist_moment of gp_functions_grad.hpp, not in src). -/
noncomputable def update_fist_moment (g m beta1 : ℝ) : ℝ := beta1 * m + (1 - beta1) * g

/-- Modelled from the spec: biased second-moment update v = beta2 * v +
(1 - beta2) * g^2 (update_second_moment of gp_functions_grad.hpp, not in
src). -/
noncomputable def update_second_moment (g v beta2 : ℝ) : ℝ := beta2 * v + (1 - beta2) * g ^ 2

/-- Modelled from the spec: the Adam step on the unconstrained parameter
(update_param of gp_functions_grad.hpp, not in src), bias-correcting the new
moments with the power accumulators beta1_T and beta2_T at iteration iter:
u - lr * (m / (1 - beta1^t)) / (sqrt (v / (1 - beta2^t)) + eps), where
lr = hyperparameters[3] and eps = hyperparameters[6]. -/
noncomputable def update_param (u : ℝ) (hyper : ℕ → ℝ) (_g m v : ℝ) (beta1T beta2T : ℕ → ℝ)
    (iter : ℕ) : ℝ :=
  u - hyper 3 * (m / (1 - beta1T iter)) / (Real.sqrt (v / (1 - beta2T iter)) + hyper 6)

/-- A zero-initialized diagonal accumulator tile (gen_tile_zeros_diag). -/
noncomputable def gen_tile_zeros_diag (_N : ℕ) : ℕ → ℝ := fun _ => 0

/-- Accumulation r := r + diag(A * B) of the diagonal of a tile product into a
running vector, as dot_diag_gemm of adapter_cublas.cpp computes it (the CPU
kernel mkl_gemm_diag of mkl_adapter.hpp is not in src and is modelled by
that in-src adapter). -/
noncomputable def mkl_gemm_diag (A B : ℕ → ℕ → ℝ) (r : ℕ → ℝ) (N : ℕ) : ℕ → ℝ :=
  fun l => r l + ∑ m ∈ Finset.range N, A l m * B m l

/-- The diagonal accumulator tiles of update_hyperparameter
(tiled_algorithms_cpu.hpp lines 279-294): tile i starts as zeros and receives
one mkl_gemm_diag per j, with tiles[i*n_tiles+j] and rhs[j*n_tiles+i]. -/
noncomputable def diagTiles (tiles rhs : ℕ → ℕ → ℕ → ℝ) (N n_tiles : ℕ) : ℕ → ℕ → ℝ :=
  fun i => (List.range n_tiles).foldl
    (fun r j => mkl_gemm_diag (tiles (i * n_tiles + j)) (rhs (j * n_tiles + i)) r N)
    (gen_tile_zeros_diag N)

/-- Modelled from the spec: compute_gradient (gp_functions_grad.hpp, not in
src) reduces the trace across the diagonal accumulator tiles into one
scalar. -/
noncomputable def compute_gradient (dts : ℕ → ℕ → ℝ) (N n_tiles : ℕ) : ℝ :=
  ∑ i ∈ Finset.range n_tiles, ∑ l ∈ Finset.range N, dts i l

/-- The scalar gradient update_hyperparameter computes from its tile inputs. -/
noncomputable def gradientOf (tiles rhs : ℕ → ℕ → ℕ → ℝ) (N n_tiles : ℕ) : ℝ :=
  compute_gradient (diagTiles tiles rhs N n_tiles) N n_tiles

/-- Modelled from the spec: compute_gradient_noise (gp_functions_grad.hpp, not
in src) computes the noise-variance gradient as a closed-form trace over the
inverse-factor tiles. -/
noncomputable def compute_gradient_noise (tiles : ℕ → ℕ → ℕ → ℝ) (_hyper : ℕ → ℝ)
    (N n_tiles : ℕ) : ℝ :=
  ∑ i ∈ Finset.range n_tiles, ∑ l ∈ Finset.range N, tiles (i * n_tiles + i) l l

/-- Embedding of update_hyperparameter (tiled_algorithms_cpu.hpp lines
265-313): for param_idx 0 or 1 it creates zeroed diagonal tiles, accumulates
the gradient via mkl_gemm_diag, reduces it, maps the old hyperparameter to
unconstrained space, updates the two moments at param_idx, applies the Adam
step with the new moments, maps back to constrained space and stores the
result at param_idx; for every other param_idx it throws
std::invalid_argument before scheduling anything, leaving the state
untouched.  The result is the thrown error (if any), the state as left by the
call, and the list of kernels scheduled during it. -/
noncomputable def update_hyperparameter (tiles rhs : ℕ → ℕ → ℕ → ℝ) (N n_tiles : ℕ)
    (beta1T beta2T : ℕ → ℝ) (iter param_idx : ℕ) (s : AdamState) :
    Option OptError × AdamState × List OptEv :=
  if param_idx = 0 ∨ param_idx = 1 then
    let g := gradientOf tiles rhs N n_tiles
    let u := to_unconstrained (s.hyper param_idx) false
    let m := update_fist_moment g (s.mT param_idx) (s.hyper 4)
    let v := update_second_moment g (s.vT param_idx) (s.hyper 5)
    let p := update_param u s.hyper g m v beta1T beta2T iter
    let c := to_constrained p false
    (none,
      ⟨Function.update s.hyper param_idx c,
        Function.update s.mT param_idx m,
        Function.update s.vT param_idx v⟩,
      (List.range n_tiles).map OptEv.genZerosDiag
        ++ ((List.range n_tiles).flatMap fun i =>
              (List.range n_tiles).map fun j => OptEv.gemmDiag i j)
        ++ [OptEv.scalarKernel 0, OptEv.scalarKernel 1, OptEv.scalarKernel 2,
            OptEv.scalarKernel 3, OptEv.scalarKernel 4, OptEv.scalarKernel 5])
  else
    (some OptError.invalidArgument, s, [])

/-- Embedding of update_noise_variance (tiled_algorithms_cpu.hpp lines
316-338): the same Adam pipeline for hyperparameter index 2, with the
gradient from compute_gradient_noise and the noise flag set on both
reparametrization calls. -/
noncomputable def update_noise_variance (tiles : ℕ → ℕ → ℕ → ℝ) (N n_tiles : ℕ)
    (beta1T beta2T : ℕ → ℝ) (iter : ℕ) (s : AdamState) :
    Option OptError × AdamState × List OptEv :=
  let g := compute_gradient_noise tiles s.hyper N n_tiles
  let u := to_unconstrained (s.hyper 2) true
  let m := update_fist_moment g (s.mT 2) (s.hyper 4)
  let v := update_second_moment g (s.vT 2) (s.hyper 5)
  let p := update_param u s.hyper g m v beta1T beta2T iter
  let c := to_constrained p true
  (none,
    ⟨Function.update s.hyper 2 c, Function.update s.mT 2 m, Function.update s.vT 2 v⟩,
    [OptEv.scalarKernel 0, OptEv.scalarKernel 1, OptEv.scalarKernel 2,
      OptEv.scalarKernel 3, OptEv.scalarKernel 4, OptEv.scalarKernel 5])

/-- All-ones 1 x 1 single-tile grid used in the repeated-update example. -/
noncomputable def onesGrid : ℕ → ℕ → ℕ → ℝ := fun _ _ _ => 1

/-- Zero power-accumulator sequence (all betas zero). -/
noncomputable def zeroSeq : ℕ → ℝ := fun _ => 0

/-- Start state for the repeated-update example: parameter and learning rate
1, beta1 = beta2 = epsilon = 0, zero moments. -/
noncomputable def adamStart : AdamState :=
  ⟨fun n => if n = 4 then 0 else if n = 5 then 0 else if n = 6 then 0 else 1,
    fun _ => 0, fun _ => 0⟩

/-- The example state after one update of hyperparameter 0 (gradient 1). -/
noncomputable def adamOnce : AdamState :=
  (update_hyperparameter onesGrid onesGrid 1 1 zeroSeq zeroSeq 0 0 adamStart).2.1

/-- The example state after a second identical update. -/
noncomputable def adamTwice : AdamState :=
  (update_hyperparameter onesGrid onesGrid 1 1 zeroSeq zeroSeq 1 0 adamOnce).2.1

/-! ### Tiled triangular solves (forward_solve_tiled / backward_solve_tiled)

Tiles are b x b rational matrices (doubles idealized as exact arithmetic).
The factor grid is flat, slot k*n_tiles+j holding tile (k,j); the right-hand
side is a vector of column tiles.  The vector kernels (mkl_trsv_l,
mkl_gemv_l, mkl_trsv_u, mkl_gemv_u of mkl_adapter.hpp) are not in src and are
modelled from the spec. -/

/-- Modelled from the spec: mkl_trsv_l (mkl_adapter.hpp, not in src) solves
L x = a against the lower-triangular diagonal factor tile L; for an
invertible tile this is multiplication by its inverse. -/
noncomputable def mkl_trsv_l {b : ℕ} (L : Matrix (Fin b) (Fin b) ℚ) (a : Fin b → ℚ) :
    Fin b → ℚ :=
  L⁻¹.mulVec a

/-- Modelled from the spec: mkl_gemv_l (mkl_adapter.hpp, not in src) subtracts
the panel contribution from a trailing rhs tile, y := y - A x. -/
def mkl_gemv_l {b : ℕ} (A : Matrix (Fin b) (Fin b) ℚ) (x y : Fin b → ℚ) : Fin b → ℚ :=
  y - A.mulVec x

/-- Modelled from the spec: mkl_trsv_u (mkl_adapter.hpp, not in src) solves
the transposed system L^T x = a against a diagonal factor tile. -/
noncomputable def mkl_trsv_u {b : ℕ} (L : Matrix (Fin b) (Fin b) ℚ) (a : Fin b → ℚ) :
    Fin b → ℚ :=
  L.transpose⁻¹.mulVec a

/-- Modelled from the spec: mkl_gemv_u (mkl_adapter.hpp, not in src) subtracts
the transposed panel contribution, y := y - A^T x. -/
def mkl_gemv_u {b : ℕ} (A : Matrix (Fin b) (Fin b) ℚ) (x y : Fin b → ℚ) : Fin b → ℚ :=
  y - A.transpose.mulVec x

/-- One stage k of forward_solve_tiled (tiled_algorithms_cpu.hpp lines 47-56):
rhs[k] := trsv_l(tiles[k*n_tiles+k], rhs[k]); then for each m with
k < m < n_tiles, rhs[m] := gemv_l(tiles[m*n_tiles+k], rhs[k], rhs[m]), each
gemv reading the freshly solved rhs[k]. -/
noncomputable def forwardStep {b : ℕ} (tiles : ℕ → Matrix (Fin b) (Fin b) ℚ)
    (n_tiles k : ℕ) (rhs : ℕ → Fin b → ℚ) : ℕ → Fin b → ℚ :=
  fun m =>
    if m = k then mkl_trsv_l (tiles (k * n_tiles + k)) (rhs k)
    else if k < m ∧ m < n_tiles then
      mkl_gemv_l (tiles (m * n_tiles + k))
        (mkl_trsv_l (tiles (k * n_tiles + k)) (rhs k)) (rhs m)
    else rhs m

/-- forward_solve_tiled (tiled_algorithms_cpu.hpp lines 42-57): stages
k = 0 .. n_tiles-1 in order. -/
noncomputable def forward_solve_tiled {b : ℕ} (tiles : ℕ → Matrix (Fin b) (Fin b) ℚ)
    (n_tiles : ℕ) (rhs : ℕ → Fin b → ℚ) : ℕ → Fin b → ℚ :=
  (List.range n_tiles).foldl (fun r k => forwardStep tiles n_tiles k r) rhs

/-- The first s stages of the forward solve. -/
noncomputable def fwUpTo {b : ℕ} (tiles : ℕ → Matrix (Fin b) (Fin b) ℚ)
    (n_tiles s : ℕ) (rhs : ℕ → Fin b → ℚ) : ℕ → Fin b → ℚ :=
  (List.range s).foldl (fun r k => forwardStep tiles n_tiles k r) rhs

/-- One stage k of backward_solve_tiled (tiled_algorithms_cpu.hpp lines
66-72): rhs[k] := trsv_u(tiles[k*n_tiles+k], rhs[k]); then for each m < k,
rhs[m] := gemv_u(tiles[k*n_tiles+m], rhs[k], rhs[m]), each gemv reading the
freshly solved rhs[k] and the transposed factor tile (k,m). -/
noncomputable def backwardStep {b : ℕ} (tiles : ℕ → Matrix (Fin b) (Fin b) ℚ)
    (n_tiles k : ℕ) (rhs : ℕ → Fin b → ℚ) : ℕ → Fin b → ℚ :=
  fun m =>
    if m = k then mkl_trsv_u (tiles (k * n_tiles + k)) (rhs k)
    else if m < k then
      mkl_gemv_u (tiles (k * n_tiles + m))
        (mkl_trsv_u (tiles (k * n_tiles + k)) (rhs k)) (rhs m)
    else rhs m

/-- backward_solve_tiled (tiled_algorithms_cpu.hpp lines 59-74): stages
k = n_tiles-1 down to 0. -/
noncomputable def backward_solve_tiled {b : ℕ} (tiles : ℕ → Matrix (Fin b) (Fin b) ℚ)
    (n_tiles : ℕ) (rhs : ℕ → Fin b → ℚ) : ℕ → Fin b → ℚ :=
  ((List.range n_tiles).reverse).foldl (fun r k => backwardStep tiles n_tiles k r) rhs

/-- The tail of the backward solve: stages n_tiles-1 down to s. -/
noncomputable def bwFrom {b : ℕ} (tiles : ℕ → Matrix (Fin b) (Fin b) ℚ)
    (n_tiles s : ℕ) (rhs : ℕ → Fin b → ℚ) : ℕ → Fin b → ℚ :=
  ((List.range' s (n_tiles - s)).reverse).foldl (fun r k => backwardStep tiles n_tiles k r) rhs

/-- The lower block-triangular factor assembled from the tile grid: block
(k,j) is tiles[k*n_tiles+j] for j <= k and zero above the diagonal (the
upper slots are never referenced by the solves). -/
def blockL {b : ℕ} (tiles : ℕ → Matrix (Fin b) (Fin b) ℚ) (n_tiles k j : ℕ) :
    Matrix (Fin b) (Fin b) ℚ :=
  if j ≤ k then tiles (k * n_tiles + j) else 0

/-! ### Tiled prediction (prediction_tiled) -/

/-- Embedding of gemv (adapter_cublas.cpp lines 206-226): b := alpha * A * a
+ beta * b with beta fixed to 1, so the kernel accumulates into the existing
contents of b; alpha is a caller-supplied scalar.  (The kernel's transpose
flag is not exercised by the prediction path and is omitted.) -/
def gemv {nr nc : ℕ} (alpha : ℚ) (A : Matrix (Fin nr) (Fin nc) ℚ)
    (a : Fin nc → ℚ) (bv : Fin nr → ℚ) : Fin nr → ℚ :=
  bv + alpha • A.mulVec a

/-- prediction_tiled (tiled_algorithms_cpu.hpp lines 195-210): for each
k < m_tiles and each m < n_tiles, rhs[k] := gemv(tiles[k*n_tiles+m],
vector[m], rhs[k]), accumulating on top of the existing rhs tile (the
underlying gemv kernel has beta = 1).  The scalar alpha = 1 models
mkl_gemv_p (mkl_adapter.hpp, not in src) per the spec's "result tile k
accumulates contributions from every covariance tile (k,m) applied to input
tile m". -/
def prediction_tiled {nr nc : ℕ} (tiles : ℕ → Matrix (Fin nr) (Fin nc) ℚ)
    (vector : ℕ → Fin nc → ℚ) (rhs : ℕ → Fin nr → ℚ) (n_tiles m_tiles : ℕ) :
    ℕ → Fin nr → ℚ :=
  (List.range m_tiles).foldl
    (fun r k => (List.range n_tiles).foldl
      (fun r2 m =>
        Function.update r2 k (gemv 1 (tiles (k * n_tiles + m)) (vector m) (r2 k)))
      r)
    rhs

/-- The kernel invocations prediction_tiled issues, one per (k,m) pair in
issue order. -/
def prediction_trace (n_tiles m_tiles : ℕ) : List (ℕ × ℕ) :=
  (List.range m_tiles).flatMap fun k => (List.range n_tiles).map fun m => (k, m)

/-! ### Tiled posterior covariance (posterior_covariance_tiled) -/

/-- The three tile grids posterior_covariance_tiled receives by reference:
the cross-covariance grid, its transposed counterpart, and the prior
covariance grid whose diagonal tiles are accumulated into. -/
structure PosteriorState (α : Type) where
  CC : ℕ → α
  tCC : ℕ → α
  K : ℕ → α

/-- The (i, j, m) loop indices posterior_covariance_tiled iterates, in issue
order (tiled_algorithms_cpu.hpp lines 221-231): i < m_tiles, j from i to
i + 1 exclusive (the two outer loops address exactly the diagonal tiles of
the prior), m < n_tiles. -/
def posteriorIdx (n_tiles m_tiles : ℕ) : List (ℕ × ℕ × ℕ) :=
  (List.range m_tiles).flatMap fun i =>
    (List.range' i 1).flatMap fun j =>
      (List.range n_tiles).map fun m => (i, j, m)

/-- Embedding of posterior_covariance_tiled (tiled_algorithms_cpu.hpp lines
213-232) over an abstract tile type with accumulation kernel g (the kernel
mkl_gemm_uncertainty_matrix of mkl_adapter.hpp is not in src; the claim is a
frame property, independent of the kernel arithmetic): for each index
(i, j, m) in order, slot i*m_tiles+j of the K grid is overwritten with
g CC[i*n_tiles+m] tCC[m*m_tiles+i] K[i*m_tiles+j]; the CC and tCC grids are
only read. -/
def posterior_covariance_tiled {α : Type} (g : α → α → α → α)
    (st : PosteriorState α) (n_tiles m_tiles : ℕ) : PosteriorState α :=
  { st with
    K := (posteriorIdx n_tiles m_tiles).foldl
      (fun K p => Function.update K (p.1 * m_tiles + p.2.1)
        (g (st.CC (p.1 * n_tiles + p.2.2)) (st.tCC (p.2.2 * m_tiles + p.1))
          (K (p.1 * m_tiles + p.2.1))))
      st.K }

/-- The grid slots written by posterior_covariance_tiled, in issue order. -/
def posterior_trace (n_tiles m_tiles : ℕ) : List ℕ :=
  (posteriorIdx n_tiles m_tiles).map fun p => p.1 * m_tiles + p.2.1

/-! ### Value-level tiled Cholesky (right_looking_cholesky_tiled_mkl)

For the numeric content of the factorization the four kernels of
mkl_adapter.hpp (not in src) are modelled from the spec over exact reals
(doubles idealized as exact arithmetic, the same convention as the solve and
optimizer sections), and the full loop nest of
right_looking_cholesky_tiled_mkl (tiled_algorithms_cpu.hpp lines 17-37) is
embedded as a state transformer on the flat tile grid, slot (i,j) being the
source's index i*n_tiles+j. -/

/-- A tile is lower triangular: every entry above the diagonal is zero. -/
def LowerTri {b : ℕ} (L : Matrix (Fin b) (Fin b) ℝ) : Prop :=
  ∀ i j : Fin b, i < j → L i j = 0

/-- A tile has a strictly positive diagonal. -/
def PosDiag {b : ℕ} (L : Matrix (Fin b) (Fin b) ℝ) : Prop :=
  ∀ i : Fin b, 0 < L i i

/-- Modelled from the spec: factorize (mkl_potrf, not in src) returns "the
Cholesky factor of tile A (lower triangular)": the lower-triangular matrix
with positive diagonal whose product with its transpose is A, when A has one
(the tile is positive definite); on any other input the buffer is left as it
was (the failure path is the subject of C2, not of this claim). -/
noncomputable def potrfKernel {b : ℕ} (A : Matrix (Fin b) (Fin b) ℝ) :
    Matrix (Fin b) (Fin b) ℝ :=
  open Classical in
  if h : ∃ L, LowerTri L ∧ PosDiag L ∧ L * L.transpose = A then h.choose else A

/-- Modelled from the spec: the panel triangular solve (mkl_trsm, not in src)
solves X * L^T = A in place on A, the orientation consistent with a
lower-triangular factor. -/
noncomputable def trsmKernel {b : ℕ} (L A : Matrix (Fin b) (Fin b) ℝ) :
    Matrix (Fin b) (Fin b) ℝ :=
  A * L.transpose⁻¹

/-- Modelled from the spec: rank_update (mkl_syrk, not in src),
A' = A - B * B^T on a diagonal tile. -/
def syrkKernel {b : ℕ} (A B : Matrix (Fin b) (Fin b) ℝ) :
    Matrix (Fin b) (Fin b) ℝ :=
  A - B * B.transpose

/-- Modelled from the spec: matmul_update (mkl_gemm, not in src),
C' = C - A * B^T on an off-diagonal tile. -/
def gemmKernel {b : ℕ} (A B C : Matrix (Fin b) (Fin b) ℝ) :
    Matrix (Fin b) (Fin b) ℝ :=
  C - A * B.transpose

/-- Stage k of right_looking_cholesky_tiled_mkl as a state transformer: the
POTRF on slot (k,k); then the TRSM loop over m = k+1 .. n_tiles-1 writing
panel slots (m,k) against the freshly factored (k,k); then the SYRK/GEMM loop
writing (m,m) and, for n = k+1 .. m-1, (m,n), reading the fresh panels. -/
noncomputable def cholStageVal {b : ℕ} (n_tiles k : ℕ)
    (T : ℕ → Matrix (Fin b) (Fin b) ℝ) : ℕ → Matrix (Fin b) (Fin b) ℝ :=
  let T1 := Function.update T (k * n_tiles + k) (potrfKernel (T (k * n_tiles + k)))
  let T2 := (List.range' (k + 1) (n_tiles - (k + 1))).foldl
    (fun S m => Function.update S (m * n_tiles + k)
      (trsmKernel (S (k * n_tiles + k)) (S (m * n_tiles + k)))) T1
  (List.range' (k + 1) (n_tiles - (k + 1))).foldl
    (fun S m =>
      (List.range' (k + 1) (m - (k + 1))).foldl
        (fun S2 n => Function.update S2 (m * n_tiles + n)
          (gemmKernel (S2 (m * n_tiles + k)) (S2 (n * n_tiles + k))
            (S2 (m * n_tiles + n))))
        (Function.update S (m * n_tiles + m)
          (syrkKernel (S (m * n_tiles + m)) (S (m * n_tiles + k)))))
    T2

/-- The first s stages of the value-level tiled Cholesky. -/
noncomputable def cholUpTo {b : ℕ} (A : ℕ → Matrix (Fin b) (Fin b) ℝ)
    (n_tiles s : ℕ) : ℕ → Matrix (Fin b) (Fin b) ℝ :=
  (List.range s).foldl (fun T k => cholStageVal n_tiles k T) A

/-- Value-level semantics of right_looking_cholesky_tiled_mkl: all n_tiles
stages in order, transforming the input tile grid into the factor grid. -/
noncomputable def right_looking_cholesky_values {b : ℕ}
    (A : ℕ → Matrix (Fin b) (Fin b) ℝ) (n_tiles : ℕ) :
    ℕ → Matrix (Fin b) (Fin b) ℝ :=
  (List.range n_tiles).foldl (fun T k => cholStageVal n_tiles k T) A

/-- The symmetric N x N matrix (N = n_tiles * b) a tile grid represents: the
block at (p.1, q.1) is the stored lower tile, mirrored above the diagonal
(only the lower tiles are semantically meaningful in the source). -/
def assembleSym {b : ℕ} (A : ℕ → Matrix (Fin b) (Fin b) ℝ) (n_tiles : ℕ) :
    Matrix (Fin n_tiles × Fin b) (Fin n_tiles × Fin b) ℝ :=
  Matrix.of fun p q =>
    if q.1 ≤ p.1 then A ((p.1 : ℕ) * n_tiles + (q.1 : ℕ)) p.2 q.2
    else A ((q.1 : ℕ) * n_tiles + (p.1 : ℕ)) q.2 p.2

/-- The factor reassembled from the output tiles: the lower tiles of the
grid, with everything on or above the scalar diagonal taken from them and
zero elsewhere. -/
def assembleLow {b : ℕ} (Lg : ℕ → Matrix (Fin b) (Fin b) ℝ) (n_tiles : ℕ) :
    Matrix (Fin n_tiles × Fin b) (Fin n_tiles × Fin b) ℝ :=
  Matrix.of fun p q =>
    if q.1 < p.1 ∨ (q.1 = p.1 ∧ q.2 ≤ p.2) then
      Lg ((p.1 : ℕ) * n_tiles + (q.1 : ℕ)) p.2 q.2
    else 0

/-- The 1 x 1 tile holding the single entry 1 (a concrete test input). -/
def unit_tile : Matrix (Fin 1) (Fin 1) ℝ := Matrix.of fun _ _ => 1

end GPXPy

namespace GPXPy

/-! ### Theorems for claims C1 and C2 -/

lemma filter_lt_range (n k : ℕ) :
    ((List.range n).filter fun m => decide (k < m)) = List.range' (k + 1) (n - (k + 1)) := by
  induction n with
  | zero => simp
  | succ n ih =>
    rw [List.range_succ, List.filter_append, ih]
    by_cases h : k < n
    · have h1 : n + 1 - (k + 1) = (n - (k + 1)) + 1 := by omega
      have h2 : (k + 1) + 1 * (n - (k + 1)) = n := by omega
      rw [h1, List.range'_concat, h2]
      simp [h]
    · have h1 : n + 1 - (k + 1) = n - (k + 1) := by omega
      rw [h1]
      simp [h]

lemma claimStage_eq (n_tiles : ℕ) : claimStage n_tiles = choleskyStage n_tiles := by
  funext k
  simp only [claimStage, choleskyStage, stagePanels, stageUpdates, filter_lt_range]

lemma claimTrace_eq (n_tiles : ℕ) :
    right_looking_cholesky_tiled_mkl n_tiles = claimTrace n_tiles := by
  rw [right_looking_cholesky_tiled_mkl, claimTrace, claimStage_eq]

lemma indep_of_pred {P : ℕ × ℕ → Prop} {a b : KInv}
    (ha : ∀ s ∈ a.rd, s = a.wr ∨ P s) (hb : ∀ s ∈ b.rd, s = b.wr ∨ P s)
    (hwa : ¬P a.wr) (hwb : ¬P b.wr) (hab : a.wr ≠ b.wr) : Indep a b := by
  refine ⟨fun h => ?_, fun h => ?_, hab⟩
  · rcases hb _ h with h' | h'
    · exact hab h'
    · exact hwa h'
  · rcases ha _ h with h' | h'
    · exact hab h'.symm
    · exact hwb h'

lemma pairwise_indep_of_pred (P : ℕ × ℕ → Prop) (l : List KInv)
    (hr : ∀ a ∈ l, ∀ s ∈ a.rd, s = a.wr ∨ P s)
    (hw : ∀ a ∈ l, ¬P a.wr)
    (hd : l.Pairwise fun a b => a.wr ≠ b.wr) : l.Pairwise Indep := by
  refine hd.imp_of_mem fun {a b} hma hmb hne => ?_
  exact indep_of_pred (hr a hma) (hr b hmb) (hw a hma) (hw b hmb) hne

lemma stagePanels_pairwise (n_tiles k : ℕ) : (stagePanels n_tiles k).Pairwise Indep := by
  apply pairwise_indep_of_pred (fun s => s = (k, k))
  · rintro a ha s hs
    rw [stagePanels, List.mem_map] at ha
    obtain ⟨m, _, rfl⟩ := ha
    simp only [trsmInv, List.mem_cons, List.not_mem_nil, or_false] at hs
    rcases hs with rfl | rfl
    · exact Or.inr rfl
    · exact Or.inl rfl
  · intro a ha
    rw [stagePanels, List.mem_map] at ha
    obtain ⟨m, hm, rfl⟩ := ha
    rw [List.mem_range'_1] at hm
    intro h
    have : m = k := congrArg Prod.fst h
    omega
  · rw [stagePanels, List.pairwise_map]
    refine List.Pairwise.imp_of_mem ?_ (List.nodup_range' (k + 1) (n_tiles - (k + 1)))
    intro m m' _ _ hne h
    exact hne (congrArg Prod.fst h)

lemma stageUpdates_pairwise (n_tiles k : ℕ) : (stageUpdates n_tiles k).Pairwise Indep := by
  apply pairwise_indep_of_pred (fun s => s.2 = k)
  · rintro a ha s hs
    rw [stageUpdates, List.mem_flatMap] at ha
    obtain ⟨m, hm, ha⟩ := ha
    rw [List.mem_cons] at ha
    rcases ha with rfl | ha
    · simp only [syrkInv, List.mem_cons, List.not_mem_nil, or_false] at hs
      rcases hs with rfl | rfl
      · exact Or.inl rfl
      · exact Or.inr rfl
    · rw [List.mem_map] at ha
      obtain ⟨n, _, rfl⟩ := ha
      simp only [gemmInv, List.mem_cons, List.not_mem_nil, or_false] at hs
      rcases hs with rfl | rfl | rfl
      · exact Or.inr rfl
      · exact Or.inr rfl
      · exact Or.inl rfl
  · intro a ha
    rw [stageUpdates, List.mem_flatMap] at ha
    obtain ⟨m, hm, ha⟩ := ha
    rw [List.mem_range'_1] at hm
    rw [List.mem_cons] at ha
    rcases ha with rfl | ha
    · intro h
      simp only [syrkInv] at h
      omega
    · rw [List.mem_map] at ha
      obtain ⟨n, hn, rfl⟩ := ha
      rw [List.mem_range'_1] at hn
      intro h
      simp only [gemmInv] at h
      omega
  · rw [stageUpdates, List.pairwise_flatMap]
    constructor
    · intro m hm
      rw [List.mem_range'_1] at hm
      constructor
      · intro a ha
        rw [List.mem_map] at ha
        obtain ⟨n, hn, rfl⟩ := ha
        rw [List.mem_range'_1] at hn
        intro h
        have h2 : m = n := congrArg Prod.snd h
        omega
      · rw [List.pairwise_map]
        refine List.Pairwise.imp_of_mem ?_ (List.nodup_range' (k + 1) (m - (k + 1)))
        intro n n' _ _ hne h
        exact hne (congrArg Prod.snd h)
    · refine List.Pairwise.imp_of_mem ?_ (List.nodup_range' (k + 1) (n_tiles - (k + 1)))
      intro m m' _ _ hne a ha b hb
      rw [List.mem_cons] at ha hb
      have hafst : a.wr.1 = m := by
        rcases ha with rfl | ha
        · rfl
        · rw [List.mem_map] at ha
          obtain ⟨n, _, rfl⟩ := ha
          rfl
      have hbfst : b.wr.1 = m' := by
        rcases hb with rfl | hb
        · rfl
        · rw [List.mem_map] at hb
          obtain ⟨n, _, rfl⟩ := hb
          rfl
      intro h
      apply hne
      rw [← hafst, ← hbfst, h]

/-- C1 counterexample: the claim that all panel/update invocations within one
stage are pairwise independent is false already at n_tiles = 2, stage 0: the
TRSM writes panel slot (1,0) and the SYRK reads it. -/
theorem cholesky_stage_not_all_pairwise_indep :
    ¬(stagePanels 2 0 ++ stageUpdates 2 0).Pairwise Indep := by decide

/-- C1 (amended): for every n_tiles >= 1 the trace of
right_looking_cholesky_tiled_mkl is exactly the claimed stage pattern, with
exactly the claimed slots read and written; within one stage the panel (TRSM)
invocations are pairwise independent and the update (SYRK/GEMM) invocations
are pairwise independent (the updates read the panel tiles written earlier in
the same stage, which is what the counterexample exhibits); and each stage k
with k+1 < n_tiles writes diagonal slot (k+1,k+1), which the POTRF opening
stage k+1 reads, so successive stages are serialized. -/
theorem cholesky_trace_pattern (n_tiles : ℕ) (_h : 1 ≤ n_tiles) :
    right_looking_cholesky_tiled_mkl n_tiles = claimTrace n_tiles
    ∧ (∀ k < n_tiles, (stagePanels n_tiles k).Pairwise Indep
        ∧ (stageUpdates n_tiles k).Pairwise Indep)
    ∧ (∀ k, k + 1 < n_tiles →
        syrkInv k (k + 1) ∈ choleskyStage n_tiles k
        ∧ (syrkInv k (k + 1)).wr = (k + 1, k + 1)
        ∧ potrfInv (k + 1) ∈ choleskyStage n_tiles (k + 1)
        ∧ (k + 1, k + 1) ∈ (potrfInv (k + 1)).rd) := by
  refine ⟨claimTrace_eq n_tiles, fun k _ => ⟨stagePanels_pairwise n_tiles k,
    stageUpdates_pairwise n_tiles k⟩, fun k hk => ⟨?_, rfl, ?_, ?_⟩⟩
  · rw [choleskyStage, List.mem_cons]
    refine Or.inr (List.mem_append.mpr (Or.inr ?_))
    rw [stageUpdates, List.mem_flatMap]
    exact ⟨k + 1, by rw [List.mem_range'_1]; omega, List.mem_cons_self _ _⟩
  · exact List.mem_cons_self _ _
  · rw [potrfInv]
    exact List.mem_cons_self _ _

/-- Witness for C1's amended theorem at n_tiles = 2. -/
theorem cholesky_trace_pattern_witness :
    1 ≤ 2 ∧
      (right_looking_cholesky_tiled_mkl 2 = claimTrace 2
      ∧ (∀ k < 2, (stagePanels 2 k).Pairwise Indep ∧ (stageUpdates 2 k).Pairwise Indep)
      ∧ (∀ k, k + 1 < 2 →
          syrkInv k (k + 1) ∈ choleskyStage 2 k
          ∧ (syrkInv k (k + 1)).wr = (k + 1, k + 1)
          ∧ potrfInv (k + 1) ∈ choleskyStage 2 (k + 1)
          ∧ (k + 1, k + 1) ∈ (potrfInv (k + 1)).rd)) :=
  ⟨by decide, cholesky_trace_pattern 2 (by decide)⟩

/-- C2: the potrf of adapter_cublas.cpp does not raise NotPositiveDefinite on
the non-positive-definite tile [[1,2],[2,1]] even though the factorization
routine it calls reports a non-positive pivot at column 2 (info = 2): the
adapter frees d_info without reading it and returns the buffer as a ready
future, so the failure the claim requires never propagates. -/
theorem potrf_ignores_nonpositive_pivot :
    potrfInfo tile21 2 = 2 ∧ potrf tile21 2 = Except.ok tile21 := by
  refine ⟨?_, rfl⟩
  show firstNonposIdx ((ldlCols tile21 2).map (fun cd => cd.2)) 0 = 2
  norm_num [ldlCols, ldlNext, tile21, List.range_succ, firstNonposIdx]

/-! ### Theorems for claims C4, C6, C7, C8 -/

/-- C4: for every param_idx other than 0 or 1, update_hyperparameter throws
invalid_argument and the rejection happens before any kernel is scheduled: the
scheduled-kernel list is empty (so no gradient tile is created) and the state
(hyperparameter array and both moment vectors) is returned untouched. -/
theorem update_hyperparameter_rejects_bad_index
    (tiles rhs : ℕ → ℕ → ℕ → ℝ) (N n_tiles : ℕ) (beta1T beta2T : ℕ → ℝ)
    (iter param_idx : ℕ) (s : AdamState)
    (h0 : param_idx ≠ 0) (h1 : param_idx ≠ 1) :
    update_hyperparameter tiles rhs N n_tiles beta1T beta2T iter param_idx s
      = (some OptError.invalidArgument, s, []) := by
  rw [update_hyperparameter, if_neg]
  rintro (h | h)
  · exact h0 h
  · exact h1 h

/-- Witness for C4 at param_idx = 3. -/
theorem update_hyperparameter_rejects_bad_index_witness :
    (3 : ℕ) ≠ 0 ∧ (3 : ℕ) ≠ 1 ∧
      update_hyperparameter onesGrid onesGrid 1 1 zeroSeq zeroSeq 0 3 adamStart
        = (some OptError.invalidArgument, adamStart, []) :=
  ⟨by decide, by decide,
    update_hyperparameter_rejects_bad_index onesGrid onesGrid 1 1 zeroSeq zeroSeq 0 3
      adamStart (by decide) (by decide)⟩

/-- C6: each hyperparameter update applies exactly the Adam rule: the old
parameter is mapped to unconstrained space by log, the biased moments become
m = beta1 * m + (1-beta1) * g and v = beta2 * v + (1-beta2) * g^2 and are
stored, the unconstrained parameter is decremented by
lr * (m / (1-beta1^t)) / (sqrt (v / (1-beta2^t)) + eps), and the result is
mapped back by exp and stored as the new hyperparameter; the same pipeline is
applied by update_noise_variance to index 2 with its own gradient. -/
theorem update_applies_adam_rule
    (tiles rhs tiles2 : ℕ → ℕ → ℕ → ℝ) (N n_tiles : ℕ) (beta1T beta2T : ℕ → ℝ)
    (iter param_idx : ℕ) (s : AdamState)
    (hidx : param_idx = 0 ∨ param_idx = 1) :
    ((update_hyperparameter tiles rhs N n_tiles beta1T beta2T iter param_idx s).2.1.hyper
        param_idx
      = Real.exp (Real.log (s.hyper param_idx)
          - s.hyper 3 * ((s.hyper 4 * s.mT param_idx
                + (1 - s.hyper 4) * gradientOf tiles rhs N n_tiles) / (1 - beta1T iter))
            / (Real.sqrt ((s.hyper 5 * s.vT param_idx
                + (1 - s.hyper 5) * gradientOf tiles rhs N n_tiles ^ 2) / (1 - beta2T iter))
              + s.hyper 6))
    ∧ (update_hyperparameter tiles rhs N n_tiles beta1T beta2T iter param_idx s).2.1.mT
        param_idx
      = s.hyper 4 * s.mT param_idx + (1 - s.hyper 4) * gradientOf tiles rhs N n_tiles
    ∧ (update_hyperparameter tiles rhs N n_tiles beta1T beta2T iter param_idx s).2.1.vT
        param_idx
      = s.hyper 5 * s.vT param_idx + (1 - s.hyper 5) * gradientOf tiles rhs N n_tiles ^ 2)
    ∧ ((update_noise_variance tiles2 N n_tiles beta1T beta2T iter s).2.1.hyper 2
      = Real.exp (Real.log (s.hyper 2)
          - s.hyper 3 * ((s.hyper 4 * s.mT 2
                + (1 - s.hyper 4) * compute_gradient_noise tiles2 s.hyper N n_tiles)
              / (1 - beta1T iter))
            / (Real.sqrt ((s.hyper 5 * s.vT 2
                + (1 - s.hyper 5) * compute_gradient_noise tiles2 s.hyper N n_tiles ^ 2)
              / (1 - beta2T iter)) + s.hyper 6))
    ∧ (update_noise_variance tiles2 N n_tiles beta1T beta2T iter s).2.1.mT 2
      = s.hyper 4 * s.mT 2 + (1 - s.hyper 4) * compute_gradient_noise tiles2 s.hyper N n_tiles
    ∧ (update_noise_variance tiles2 N n_tiles beta1T beta2T iter s).2.1.vT 2
      = s.hyper 5 * s.vT 2
        + (1 - s.hyper 5) * compute_gradient_noise tiles2 s.hyper N n_tiles ^ 2) := by
  rcases hidx with rfl | rfl <;>
    simp [update_hyperparameter, update_noise_variance, to_constrained, to_unconstrained,
      update_fist_moment, update_second_moment, update_param, Function.update_same]

/-- Witness for C6 at param_idx = 0 on the concrete example state. -/
theorem update_applies_adam_rule_witness :
    ((0 : ℕ) = 0 ∨ (0 : ℕ) = 1) ∧
      ((update_hyperparameter onesGrid onesGrid 1 1 zeroSeq zeroSeq 0 0 adamStart).2.1.hyper 0
        = Real.exp (Real.log (adamStart.hyper 0)
            - adamStart.hyper 3 * ((adamStart.hyper 4 * adamStart.mT 0
                  + (1 - adamStart.hyper 4) * gradientOf onesGrid onesGrid 1 1)
                / (1 - zeroSeq 0))
              / (Real.sqrt ((adamStart.hyper 5 * adamStart.vT 0
                  + (1 - adamStart.hyper 5) * gradientOf onesGrid onesGrid 1 1 ^ 2)
                / (1 - zeroSeq 0)) + adamStart.hyper 6))
      ∧ (update_hyperparameter onesGrid onesGrid 1 1 zeroSeq zeroSeq 0 0 adamStart).2.1.mT 0
        = adamStart.hyper 4 * adamStart.mT 0
          + (1 - adamStart.hyper 4) * gradientOf onesGrid onesGrid 1 1
      ∧ (update_hyperparameter onesGrid onesGrid 1 1 zeroSeq zeroSeq 0 0 adamStart).2.1.vT 0
        = adamStart.hyper 5 * adamStart.vT 0
          + (1 - adamStart.hyper 5) * gradientOf onesGrid onesGrid 1 1 ^ 2)
      ∧ ((update_noise_variance onesGrid 1 1 zeroSeq zeroSeq 0 adamStart).2.1.hyper 2
        = Real.exp (Real.log (adamStart.hyper 2)
            - adamStart.hyper 3 * ((adamStart.hyper 4 * adamStart.mT 2
                  + (1 - adamStart.hyper 4)
                    * compute_gradient_noise onesGrid adamStart.hyper 1 1) / (1 - zeroSeq 0))
              / (Real.sqrt ((adamStart.hyper 5 * adamStart.vT 2
                  + (1 - adamStart.hyper 5)
                    * compute_gradient_noise onesGrid adamStart.hyper 1 1 ^ 2)
                / (1 - zeroSeq 0)) + adamStart.hyper 6))
      ∧ (update_noise_variance onesGrid 1 1 zeroSeq zeroSeq 0 adamStart).2.1.mT 2
        = adamStart.hyper 4 * adamStart.mT 2
          + (1 - adamStart.hyper 4) * compute_gradient_noise onesGrid adamStart.hyper 1 1
      ∧ (update_noise_variance onesGrid 1 1 zeroSeq zeroSeq 0 adamStart).2.1.vT 2
        = adamStart.hyper 5 * adamStart.vT 2
          + (1 - adamStart.hyper 5)
            * compute_gradient_noise onesGrid adamStart.hyper 1 1 ^ 2) :=
  ⟨Or.inl rfl,
    update_applies_adam_rule onesGrid onesGrid onesGrid 1 1 zeroSeq zeroSeq 0 0 adamStart
      (Or.inl rfl)⟩

/-- C7: after any hyperparameter update with a valid index, and after any
noise-variance update, the three tunable hyperparameters stay strictly
positive for every gradient (arbitrary tile inputs) and every iteration
count: each update stores exp of the stepped unconstrained value, and the
untouched entries keep their previous positive values. -/
theorem updates_preserve_positivity
    (tiles rhs tiles2 : ℕ → ℕ → ℕ → ℝ) (N n_tiles : ℕ) (beta1T beta2T : ℕ → ℝ)
    (iter param_idx : ℕ) (s : AdamState)
    (hidx : param_idx = 0 ∨ param_idx = 1)
    (h0 : 0 < s.hyper 0) (h1 : 0 < s.hyper 1) (h2 : 0 < s.hyper 2) :
    (0 < (update_hyperparameter tiles rhs N n_tiles beta1T beta2T iter param_idx s).2.1.hyper 0
      ∧ 0 < (update_hyperparameter tiles rhs N n_tiles beta1T beta2T iter param_idx s).2.1.hyper 1
      ∧ 0 < (update_hyperparameter tiles rhs N n_tiles beta1T beta2T iter param_idx s).2.1.hyper 2)
    ∧ (0 < (update_noise_variance tiles2 N n_tiles beta1T beta2T iter s).2.1.hyper 0
      ∧ 0 < (update_noise_variance tiles2 N n_tiles beta1T beta2T iter s).2.1.hyper 1
      ∧ 0 < (update_noise_variance tiles2 N n_tiles beta1T beta2T iter s).2.1.hyper 2) := by
  rcases hidx with rfl | rfl <;>
    refine ⟨⟨?_, ?_, ?_⟩, ?_, ?_, ?_⟩ <;>
      simp [update_hyperparameter, update_noise_variance, to_constrained,
        Function.update_apply] <;>
      first
        | exact Real.exp_pos _
        | assumption

/-- Witness for C7 at param_idx = 1 on the all-ones state. -/
theorem updates_preserve_positivity_witness :
    ((1 : ℕ) = 0 ∨ (1 : ℕ) = 1) ∧ (0 : ℝ) < adamStart.hyper 0
      ∧ (0 : ℝ) < adamStart.hyper 1 ∧ (0 : ℝ) < adamStart.hyper 2 ∧
      ((0 < (update_hyperparameter onesGrid onesGrid 1 1 zeroSeq zeroSeq 0 1
              adamStart).2.1.hyper 0
        ∧ 0 < (update_hyperparameter onesGrid onesGrid 1 1 zeroSeq zeroSeq 0 1
              adamStart).2.1.hyper 1
        ∧ 0 < (update_hyperparameter onesGrid onesGrid 1 1 zeroSeq zeroSeq 0 1
              adamStart).2.1.hyper 2)
      ∧ (0 < (update_noise_variance onesGrid 1 1 zeroSeq zeroSeq 0 adamStart).2.1.hyper 0
        ∧ 0 < (update_noise_variance onesGrid 1 1 zeroSeq zeroSeq 0 adamStart).2.1.hyper 1
        ∧ 0 < (update_noise_variance onesGrid 1 1 zeroSeq zeroSeq 0 adamStart).2.1.hyper 2)) :=
  have hpos0 : (0 : ℝ) < adamStart.hyper 0 := by norm_num [adamStart]
  have hpos1 : (0 : ℝ) < adamStart.hyper 1 := by norm_num [adamStart]
  have hpos2 : (0 : ℝ) < adamStart.hyper 2 := by norm_num [adamStart]
  ⟨Or.inr rfl, hpos0, hpos1, hpos2,
    updates_preserve_positivity onesGrid onesGrid onesGrid 1 1 zeroSeq zeroSeq 0 1 adamStart
      (Or.inr rfl) hpos0 hpos1 hpos2⟩

/-- C8: updating two distinct valid hyperparameter indices in either call
order produces identical final states (an update touches only its own slot of
the hyperparameter array and of the moment vectors, and reads only that slot
plus the shared read-only scheduling scalars); and the update is not
idempotent: on the concrete example, applying the same-gradient update twice
yields a different parameter value than applying it once. -/
theorem adam_update_commutes_and_accumulates
    (t1 r1 t2 r2 : ℕ → ℕ → ℕ → ℝ) (N n_tiles : ℕ) (beta1T beta2T : ℕ → ℝ)
    (it1 it2 i j : ℕ) (s : AdamState)
    (hi : i = 0 ∨ i = 1) (hj : j = 0 ∨ j = 1) (hij : i ≠ j) :
    (update_hyperparameter t2 r2 N n_tiles beta1T beta2T it2 j
        (update_hyperparameter t1 r1 N n_tiles beta1T beta2T it1 i s).2.1).2.1
      = (update_hyperparameter t1 r1 N n_tiles beta1T beta2T it1 i
          (update_hyperparameter t2 r2 N n_tiles beta1T beta2T it2 j s).2.1).2.1
    ∧ adamTwice.hyper 0 ≠ adamOnce.hyper 0 := by
  constructor
  · rcases hi with rfl | rfl <;> rcases hj with rfl | rfl
    · exact absurd rfl hij
    · simp only [update_hyperparameter, if_pos (Or.inl rfl), if_pos (Or.inr rfl),
        update_fist_moment, update_second_moment, update_param, to_constrained,
        to_unconstrained, Function.update_apply]
      norm_num
      refine ⟨?_, ?_, ?_⟩ <;> exact Function.update_comm (by decide) _ _ _
    · simp only [update_hyperparameter, if_pos (Or.inl rfl), if_pos (Or.inr rfl),
        update_fist_moment, update_second_moment, update_param, to_constrained,
        to_unconstrained, Function.update_apply]
      norm_num
      refine ⟨?_, ?_, ?_⟩ <;> exact Function.update_comm (by decide) _ _ _
    · exact absurd rfl hij
  · have hg : gradientOf onesGrid onesGrid 1 1 = 1 := by
      norm_num [gradientOf, compute_gradient, diagTiles, mkl_gemm_diag,
        gen_tile_zeros_diag, onesGrid, List.range_succ, Finset.sum_range_one]
    have honce : adamOnce.hyper 0 = Real.exp (-1) := by
      norm_num [adamOnce, update_hyperparameter, hg, to_unconstrained, to_constrained,
        update_fist_moment, update_second_moment, update_param, adamStart, zeroSeq,
        Function.update_same, Real.log_one, Real.sqrt_one]
    have honceState : adamOnce.mT 0 = 1 ∧ adamOnce.vT 0 = 1 ∧ adamOnce.hyper 3 = 1
        ∧ adamOnce.hyper 4 = 0 ∧ adamOnce.hyper 5 = 0 ∧ adamOnce.hyper 6 = 0 := by
      norm_num [adamOnce, update_hyperparameter, hg, update_fist_moment,
        update_second_moment, adamStart, zeroSeq, Function.update_apply]
    have htwice : adamTwice.hyper 0 = Real.exp (-2) := by
      rw [adamTwice]
      norm_num [update_hyperparameter, hg, to_unconstrained, to_constrained,
        update_fist_moment, update_second_moment, update_param, zeroSeq,
        Function.update_same, honce, honceState.1, honceState.2.1, honceState.2.2.1,
        honceState.2.2.2.1, honceState.2.2.2.2.1, honceState.2.2.2.2.2,
        Real.log_exp, Real.sqrt_one]
    rw [honce, htwice]
    intro hcontra
    rw [Real.exp_eq_exp] at hcontra
    norm_num at hcontra

/-- Witness for C8 at (i,j) = (0,1) on the concrete example state. -/
theorem adam_update_commutes_and_accumulates_witness :
    ((0 : ℕ) = 0 ∨ (0 : ℕ) = 1) ∧ ((1 : ℕ) = 0 ∨ (1 : ℕ) = 1) ∧ (0 : ℕ) ≠ 1 ∧
      ((update_hyperparameter onesGrid onesGrid 1 1 zeroSeq zeroSeq 0 1
          (update_hyperparameter onesGrid onesGrid 1 1 zeroSeq zeroSeq 0 0 adamStart).2.1).2.1
        = (update_hyperparameter onesGrid onesGrid 1 1 zeroSeq zeroSeq 0 0
            (update_hyperparameter onesGrid onesGrid 1 1 zeroSeq zeroSeq 0 1
              adamStart).2.1).2.1
      ∧ adamTwice.hyper 0 ≠ adamOnce.hyper 0) :=
  ⟨Or.inl rfl, Or.inr rfl, by decide,
    adam_update_commutes_and_accumulates onesGrid onesGrid onesGrid onesGrid 1 1 zeroSeq
      zeroSeq 0 0 0 1 adamStart (Or.inl rfl) (Or.inr rfl) (by decide)⟩

/-! ### Theorems for claim C5 -/

section Solves

variable {b : ℕ} (tiles : ℕ → Matrix (Fin b) (Fin b) ℚ) (n_tiles : ℕ) (rhs : ℕ → Fin b → ℚ)

lemma fwUpTo_succ (s : ℕ) :
    fwUpTo tiles n_tiles (s + 1) rhs
      = forwardStep tiles n_tiles s (fwUpTo tiles n_tiles s rhs) := by
  rw [fwUpTo, fwUpTo, List.range_succ, List.foldl_append, List.foldl_cons, List.foldl_nil]

lemma fwUpTo_stable (s : ℕ) :
    ∀ t, s ≤ t → ∀ j, j < s → fwUpTo tiles n_tiles t rhs j = fwUpTo tiles n_tiles s rhs j := by
  intro t
  induction t with
  | zero => intro hs j hj; omega
  | succ t ih =>
    intro hs j hj
    by_cases h : s = t + 1
    · rw [h]
    · have hst : s ≤ t := by omega
      rw [fwUpTo_succ]
      show (if j = t then _ else if t < j ∧ j < n_tiles then _ else
        fwUpTo tiles n_tiles t rhs j) = _
      rw [if_neg (by omega), if_neg (by omega)]
      exact ih hst j hj

lemma fw_inv (s : ℕ) :
    s ≤ n_tiles → ∀ m, s ≤ m → m < n_tiles →
      fwUpTo tiles n_tiles s rhs m
        = rhs m - ∑ j ∈ Finset.range s,
            (tiles (m * n_tiles + j)).mulVec (fwUpTo tiles n_tiles (j + 1) rhs j) := by
  induction s with
  | zero => intro _ m _ _; simp [fwUpTo]
  | succ s ih =>
    intro hs m hm hmn
    rw [fwUpTo_succ]
    show (if m = s then _ else if s < m ∧ m < n_tiles then
        mkl_gemv_l (tiles (m * n_tiles + s))
          (mkl_trsv_l (tiles (s * n_tiles + s)) (fwUpTo tiles n_tiles s rhs s))
          (fwUpTo tiles n_tiles s rhs m)
      else fwUpTo tiles n_tiles s rhs m) = _
    rw [if_neg (by omega), if_pos ⟨by omega, hmn⟩, mkl_gemv_l]
    have hxs : mkl_trsv_l (tiles (s * n_tiles + s)) (fwUpTo tiles n_tiles s rhs s)
        = fwUpTo tiles n_tiles (s + 1) rhs s := by
      rw [fwUpTo_succ]
      show _ = if s = s then mkl_trsv_l (tiles (s * n_tiles + s))
          (fwUpTo tiles n_tiles s rhs s) else _
      rw [if_pos rfl]
    rw [hxs, ih (by omega) m (by omega) hmn, Finset.sum_range_succ, sub_sub]

lemma forward_recurrence (k : ℕ) (hk : k < n_tiles) :
    forward_solve_tiled tiles n_tiles rhs k
      = mkl_trsv_l (tiles (k * n_tiles + k))
          (rhs k - ∑ j ∈ Finset.range k,
            (tiles (k * n_tiles + j)).mulVec (forward_solve_tiled tiles n_tiles rhs j)) := by
  have hfw : forward_solve_tiled tiles n_tiles rhs = fwUpTo tiles n_tiles n_tiles rhs := rfl
  have hx : ∀ j, j < n_tiles →
      fwUpTo tiles n_tiles n_tiles rhs j = fwUpTo tiles n_tiles (j + 1) rhs j :=
    fun j hj => fwUpTo_stable tiles n_tiles rhs (j + 1) n_tiles hj j (by omega)
  rw [hfw, hx k hk, fwUpTo_succ]
  show (if k = k then mkl_trsv_l (tiles (k * n_tiles + k)) (fwUpTo tiles n_tiles k rhs k)
      else _) = _
  rw [if_pos rfl, fw_inv tiles n_tiles rhs k (by omega) k (by omega) hk]
  have hsum : ∑ j ∈ Finset.range k,
      (tiles (k * n_tiles + j)).mulVec (fwUpTo tiles n_tiles (j + 1) rhs j)
      = ∑ j ∈ Finset.range k,
        (tiles (k * n_tiles + j)).mulVec (fwUpTo tiles n_tiles n_tiles rhs j) := by
    refine Finset.sum_congr rfl fun j hj => ?_
    rw [Finset.mem_range] at hj
    rw [hx j (by omega)]
  rw [hsum]

lemma forward_solves_block (hU : ∀ k < n_tiles, IsUnit (tiles (k * n_tiles + k)).det)
    (k : ℕ) (hk : k < n_tiles) :
    ∑ j ∈ Finset.range (k + 1),
        (tiles (k * n_tiles + j)).mulVec (forward_solve_tiled tiles n_tiles rhs j)
      = rhs k := by
  rw [Finset.sum_range_succ, forward_recurrence tiles n_tiles rhs k hk, mkl_trsv_l,
    Matrix.mulVec_mulVec, Matrix.mul_nonsing_inv _ (hU k hk), Matrix.one_mulVec]
  abel

lemma bwFrom_top : bwFrom tiles n_tiles n_tiles rhs = rhs := by
  rw [bwFrom, Nat.sub_self]
  rfl

lemma bwFrom_step (s : ℕ) (hs : s < n_tiles) :
    bwFrom tiles n_tiles s rhs
      = backwardStep tiles n_tiles s (bwFrom tiles n_tiles (s + 1) rhs) := by
  rw [bwFrom, bwFrom]
  have h : n_tiles - s = (n_tiles - (s + 1)) + 1 := by omega
  rw [h, List.range'_succ, List.reverse_cons, List.foldl_append, List.foldl_cons,
    List.foldl_nil]

lemma backward_eq_bwFrom :
    backward_solve_tiled tiles n_tiles rhs = bwFrom tiles n_tiles 0 rhs := by
  rw [backward_solve_tiled, bwFrom, List.range_eq_range', Nat.sub_zero]

lemma bwFrom_stable_aux (j : ℕ) (hj : j < n_tiles) :
    ∀ d, d ≤ j → bwFrom tiles n_tiles (j - d) rhs j = bwFrom tiles n_tiles j rhs j := by
  intro d
  induction d with
  | zero => intro _; rw [Nat.sub_zero]
  | succ d ih =>
    intro hd
    rw [bwFrom_step tiles n_tiles rhs (j - (d + 1)) (by omega)]
    have hs1 : j - (d + 1) + 1 = j - d := by omega
    rw [hs1]
    show (if j = j - (d + 1) then _ else if j < j - (d + 1) then _ else
      bwFrom tiles n_tiles (j - d) rhs j) = _
    rw [if_neg (by omega), if_neg (by omega)]
    exact ih (by omega)

lemma bwFrom_stable (s j : ℕ) (hsj : s ≤ j) (hj : j < n_tiles) :
    bwFrom tiles n_tiles s rhs j = bwFrom tiles n_tiles j rhs j := by
  have h := bwFrom_stable_aux tiles n_tiles rhs j hj (j - s) (by omega)
  have h2 : j - (j - s) = s := by omega
  rwa [h2] at h

lemma bw_inv (d : ℕ) :
    d ≤ n_tiles → ∀ m, m < n_tiles - d →
      bwFrom tiles n_tiles (n_tiles - d) rhs m
        = rhs m - ∑ j ∈ Finset.Ico (n_tiles - d) n_tiles,
            (tiles (j * n_tiles + m)).transpose.mulVec (bwFrom tiles n_tiles j rhs j) := by
  induction d with
  | zero =>
    intro _ m _
    rw [Nat.sub_zero, bwFrom_top, Finset.Ico_self, Finset.sum_empty, sub_zero]
  | succ d ih =>
    intro hd m hm
    have hs : n_tiles - (d + 1) < n_tiles := by omega
    have hs1 : n_tiles - (d + 1) + 1 = n_tiles - d := by omega
    rw [bwFrom_step tiles n_tiles rhs _ hs, hs1]
    show (if m = n_tiles - (d + 1) then _ else if m < n_tiles - (d + 1) then
        mkl_gemv_u (tiles ((n_tiles - (d + 1)) * n_tiles + m))
          (mkl_trsv_u (tiles ((n_tiles - (d + 1)) * n_tiles + (n_tiles - (d + 1))))
            (bwFrom tiles n_tiles (n_tiles - d) rhs (n_tiles - (d + 1))))
          (bwFrom tiles n_tiles (n_tiles - d) rhs m)
      else bwFrom tiles n_tiles (n_tiles - d) rhs m) = _
    rw [if_neg (by omega), if_pos (by omega), mkl_gemv_u]
    have hys : mkl_trsv_u (tiles ((n_tiles - (d + 1)) * n_tiles + (n_tiles - (d + 1))))
        (bwFrom tiles n_tiles (n_tiles - d) rhs (n_tiles - (d + 1)))
        = bwFrom tiles n_tiles (n_tiles - (d + 1)) rhs (n_tiles - (d + 1)) := by
      rw [bwFrom_step tiles n_tiles rhs _ hs, hs1]
      show _ = if n_tiles - (d + 1) = n_tiles - (d + 1) then
          mkl_trsv_u (tiles ((n_tiles - (d + 1)) * n_tiles + (n_tiles - (d + 1))))
            (bwFrom tiles n_tiles (n_tiles - d) rhs (n_tiles - (d + 1))) else _
      rw [if_pos rfl]
    rw [hys, ih (by omega) m (by omega),
      Finset.sum_eq_sum_Ico_succ_bot hs
        (fun j => (tiles (j * n_tiles + m)).transpose.mulVec (bwFrom tiles n_tiles j rhs j)),
      hs1, sub_sub, add_comm]

lemma backward_recurrence (k : ℕ) (hk : k < n_tiles) :
    backward_solve_tiled tiles n_tiles rhs k
      = mkl_trsv_u (tiles (k * n_tiles + k))
          (rhs k - ∑ j ∈ Finset.Ico (k + 1) n_tiles,
            (tiles (j * n_tiles + k)).transpose.mulVec
              (backward_solve_tiled tiles n_tiles rhs j)) := by
  have hy : ∀ j, j < n_tiles →
      backward_solve_tiled tiles n_tiles rhs j = bwFrom tiles n_tiles j rhs j := by
    intro j hj
    rw [backward_eq_bwFrom]
    exact bwFrom_stable tiles n_tiles rhs 0 j (by omega) hj
  rw [hy k hk, bwFrom_step tiles n_tiles rhs k hk]
  show (if k = k then mkl_trsv_u (tiles (k * n_tiles + k))
      (bwFrom tiles n_tiles (k + 1) rhs k) else _) = _
  rw [if_pos rfl]
  have hbw : bwFrom tiles n_tiles (k + 1) rhs k
      = rhs k - ∑ j ∈ Finset.Ico (k + 1) n_tiles,
          (tiles (j * n_tiles + k)).transpose.mulVec (bwFrom tiles n_tiles j rhs j) := by
    have h1 : k + 1 = n_tiles - (n_tiles - (k + 1)) := by omega
    rw [h1]
    exact bw_inv tiles n_tiles rhs (n_tiles - (k + 1)) (by omega) k (by omega)
  rw [hbw]
  have hsum : ∑ j ∈ Finset.Ico (k + 1) n_tiles,
      (tiles (j * n_tiles + k)).transpose.mulVec (bwFrom tiles n_tiles j rhs j)
      = ∑ j ∈ Finset.Ico (k + 1) n_tiles,
        (tiles (j * n_tiles + k)).transpose.mulVec
          (backward_solve_tiled tiles n_tiles rhs j) := by
    refine Finset.sum_congr rfl fun j hj => ?_
    rw [Finset.mem_Ico] at hj
    rw [hy j (by omega)]
  rw [hsum]

lemma backward_solves_block (hU : ∀ k < n_tiles, IsUnit (tiles (k * n_tiles + k)).det)
    (k : ℕ) (hk : k < n_tiles) :
    ∑ j ∈ Finset.Ico k n_tiles,
        (tiles (j * n_tiles + k)).transpose.mulVec
          (backward_solve_tiled tiles n_tiles rhs j)
      = rhs k := by
  rw [Finset.sum_eq_sum_Ico_succ_bot hk
      (fun j => (tiles (j * n_tiles + k)).transpose.mulVec
        (backward_solve_tiled tiles n_tiles rhs j)),
    backward_recurrence tiles n_tiles rhs k hk, mkl_trsv_u, Matrix.mulVec_mulVec,
    Matrix.mul_nonsing_inv _ (by rw [Matrix.det_transpose]; exact hU k hk),
    Matrix.one_mulVec]
  abel

lemma sum_mulVec {ι : Type} (s : Finset ι) (f : ι → Matrix (Fin b) (Fin b) ℚ)
    (v : Fin b → ℚ) : (∑ i ∈ s, f i).mulVec v = ∑ i ∈ s, (f i).mulVec v := by
  classical
  induction s using Finset.induction_on with
  | empty => simp
  | insert h ih => rw [Finset.sum_insert h, Finset.sum_insert h, Matrix.add_mulVec, ih]

lemma mulVec_sum {ι : Type} (s : Finset ι) (A : Matrix (Fin b) (Fin b) ℚ)
    (f : ι → Fin b → ℚ) : A.mulVec (∑ i ∈ s, f i) = ∑ i ∈ s, A.mulVec (f i) := by
  classical
  induction s using Finset.induction_on with
  | empty => simp
  | insert h ih => rw [Finset.sum_insert h, Finset.sum_insert h, Matrix.mulVec_add, ih]

lemma blockL_forward (hU : ∀ k < n_tiles, IsUnit (tiles (k * n_tiles + k)).det)
    (k : ℕ) (hk : k < n_tiles) :
    ∑ j ∈ Finset.range n_tiles,
        (blockL tiles n_tiles k j).mulVec (forward_solve_tiled tiles n_tiles rhs j)
      = rhs k := by
  have hsplit : Finset.range n_tiles = Finset.Ico 0 (k + 1) ∪ Finset.Ico (k + 1) n_tiles := by
    rw [Finset.range_eq_Ico, Finset.Ico_union_Ico_eq_Ico (by omega) (by omega)]
  rw [hsplit, Finset.sum_union (Finset.Ico_disjoint_Ico_consecutive 0 (k + 1) n_tiles)]
  have hupper : ∑ j ∈ Finset.Ico (k + 1) n_tiles,
      (blockL tiles n_tiles k j).mulVec (forward_solve_tiled tiles n_tiles rhs j) = 0 := by
    refine Finset.sum_eq_zero fun j hj => ?_
    rw [Finset.mem_Ico] at hj
    rw [blockL, if_neg (by omega), Matrix.zero_mulVec]
  have hlower : ∑ j ∈ Finset.Ico 0 (k + 1),
      (blockL tiles n_tiles k j).mulVec (forward_solve_tiled tiles n_tiles rhs j)
      = ∑ j ∈ Finset.range (k + 1),
        (tiles (k * n_tiles + j)).mulVec (forward_solve_tiled tiles n_tiles rhs j) := by
    rw [← Nat.Ico_zero_eq_range]
    refine Finset.sum_congr rfl fun j hj => ?_
    rw [Finset.mem_Ico] at hj
    rw [blockL, if_pos (by omega)]
  rw [hupper, hlower, forward_solves_block tiles n_tiles rhs hU k hk, add_zero]

lemma blockL_backward (hU : ∀ k < n_tiles, IsUnit (tiles (k * n_tiles + k)).det)
    (k : ℕ) (hk : k < n_tiles) :
    ∑ j ∈ Finset.range n_tiles,
        (blockL tiles n_tiles j k).transpose.mulVec
          (backward_solve_tiled tiles n_tiles rhs j)
      = rhs k := by
  have hsplit : Finset.range n_tiles = Finset.Ico 0 k ∪ Finset.Ico k n_tiles := by
    rw [Finset.range_eq_Ico, Finset.Ico_union_Ico_eq_Ico (by omega) (by omega)]
  rw [hsplit, Finset.sum_union (Finset.Ico_disjoint_Ico_consecutive 0 k n_tiles)]
  have hlower : ∑ j ∈ Finset.Ico 0 k,
      (blockL tiles n_tiles j k).transpose.mulVec
        (backward_solve_tiled tiles n_tiles rhs j) = 0 := by
    refine Finset.sum_eq_zero fun j hj => ?_
    rw [Finset.mem_Ico] at hj
    rw [blockL, if_neg (by omega), Matrix.transpose_zero, Matrix.zero_mulVec]
  have hupper : ∑ j ∈ Finset.Ico k n_tiles,
      (blockL tiles n_tiles j k).transpose.mulVec
        (backward_solve_tiled tiles n_tiles rhs j)
      = ∑ j ∈ Finset.Ico k n_tiles,
        (tiles (j * n_tiles + k)).transpose.mulVec
          (backward_solve_tiled tiles n_tiles rhs j) := by
    refine Finset.sum_congr rfl fun j hj => ?_
    rw [Finset.mem_Ico] at hj
    rw [blockL, if_pos (by omega)]
  rw [hlower, hupper, backward_solves_block tiles n_tiles rhs hU k hk, zero_add]

end Solves

/-- C5: forward_solve_tiled implements block forward substitution (solved
tile k is the triangular solve of rhs tile k minus the contributions of all
previous solved tiles through factor tiles (k,j)); backward_solve_tiled is
the mirror image with the transposed factor tiles (j,k), j > k, folded in
from below; and consequently, when every diagonal factor tile is invertible,
running forward then backward solve yields the exact block solution of
L * L^T * x = b: for every block row k, summing the blocks of L * L^T (with L
the assembled lower block triangle) times the solution tiles reproduces rhs
tile k, which is the dense solution of the system in exact arithmetic. -/
theorem forward_backward_solve {b : ℕ} (tiles : ℕ → Matrix (Fin b) (Fin b) ℚ)
    (n_tiles : ℕ) (rhs : ℕ → Fin b → ℚ)
    (hU : ∀ k < n_tiles, IsUnit (tiles (k * n_tiles + k)).det) :
    (∀ k < n_tiles, forward_solve_tiled tiles n_tiles rhs k
      = mkl_trsv_l (tiles (k * n_tiles + k))
          (rhs k - ∑ j ∈ Finset.range k,
            (tiles (k * n_tiles + j)).mulVec (forward_solve_tiled tiles n_tiles rhs j)))
    ∧ (∀ k < n_tiles,
        backward_solve_tiled tiles n_tiles (forward_solve_tiled tiles n_tiles rhs) k
      = mkl_trsv_u (tiles (k * n_tiles + k))
          (forward_solve_tiled tiles n_tiles rhs k
            - ∑ j ∈ Finset.Ico (k + 1) n_tiles,
              (tiles (j * n_tiles + k)).transpose.mulVec
                (backward_solve_tiled tiles n_tiles
                  (forward_solve_tiled tiles n_tiles rhs) j)))
    ∧ (∀ k < n_tiles,
        ∑ m ∈ Finset.range n_tiles,
          (∑ j ∈ Finset.range n_tiles,
              blockL tiles n_tiles k j * (blockL tiles n_tiles m j).transpose).mulVec
            (backward_solve_tiled tiles n_tiles (forward_solve_tiled tiles n_tiles rhs) m)
          = rhs k) := by
  refine ⟨fun k hk => forward_recurrence tiles n_tiles rhs k hk,
    fun k hk => backward_recurrence tiles n_tiles _ k hk, fun k hk => ?_⟩
  calc
    ∑ m ∈ Finset.range n_tiles,
        (∑ j ∈ Finset.range n_tiles,
            blockL tiles n_tiles k j * (blockL tiles n_tiles m j).transpose).mulVec
          (backward_solve_tiled tiles n_tiles (forward_solve_tiled tiles n_tiles rhs) m)
      = ∑ m ∈ Finset.range n_tiles, ∑ j ∈ Finset.range n_tiles,
          (blockL tiles n_tiles k j * (blockL tiles n_tiles m j).transpose).mulVec
            (backward_solve_tiled tiles n_tiles (forward_solve_tiled tiles n_tiles rhs) m) :=
        Finset.sum_congr rfl fun m _ => sum_mulVec _ _ _
    _ = ∑ j ∈ Finset.range n_tiles, ∑ m ∈ Finset.range n_tiles,
          (blockL tiles n_tiles k j * (blockL tiles n_tiles m j).transpose).mulVec
            (backward_solve_tiled tiles n_tiles (forward_solve_tiled tiles n_tiles rhs) m) :=
        Finset.sum_comm
    _ = ∑ j ∈ Finset.range n_tiles,
          (blockL tiles n_tiles k j).mulVec (∑ m ∈ Finset.range n_tiles,
            (blockL tiles n_tiles m j).transpose.mulVec
              (backward_solve_tiled tiles n_tiles (forward_solve_tiled tiles n_tiles rhs) m)) := by
        refine Finset.sum_congr rfl fun j _ => ?_
        rw [mulVec_sum]
        refine Finset.sum_congr rfl fun m _ => ?_
        rw [Matrix.mulVec_mulVec]
    _ = ∑ j ∈ Finset.range n_tiles,
          (blockL tiles n_tiles k j).mulVec (forward_solve_tiled tiles n_tiles rhs j) := by
        refine Finset.sum_congr rfl fun j hj => ?_
        rw [Finset.mem_range] at hj
        rw [blockL_backward tiles n_tiles _ hU j hj]
    _ = rhs k := blockL_forward tiles n_tiles rhs hU k hk

/-- Witness for C5 at b = 1, n_tiles = 1 with the identity factor tile. -/
theorem forward_backward_solve_witness :
    (∀ k < 1, IsUnit (((fun _ => (1 : Matrix (Fin 1) (Fin 1) ℚ)) (k * 1 + k)).det)) ∧
      ((∀ k < 1, forward_solve_tiled (fun _ => 1) 1 (fun _ _ => 1) k
        = mkl_trsv_l ((fun _ => (1 : Matrix (Fin 1) (Fin 1) ℚ)) (k * 1 + k))
            ((fun _ _ => (1 : ℚ)) k - ∑ j ∈ Finset.range k,
              ((fun _ => (1 : Matrix (Fin 1) (Fin 1) ℚ)) (k * 1 + j)).mulVec
                (forward_solve_tiled (fun _ => 1) 1 (fun _ _ => 1) j)))
      ∧ (∀ k < 1,
          backward_solve_tiled (fun _ => 1) 1
              (forward_solve_tiled (fun _ => 1) 1 (fun _ _ => 1)) k
        = mkl_trsv_u ((fun _ => (1 : Matrix (Fin 1) (Fin 1) ℚ)) (k * 1 + k))
            (forward_solve_tiled (fun _ => 1) 1 (fun _ _ => 1) k
              - ∑ j ∈ Finset.Ico (k + 1) 1,
                ((fun _ => (1 : Matrix (Fin 1) (Fin 1) ℚ)) (j * 1 + k)).transpose.mulVec
                  (backward_solve_tiled (fun _ => 1) 1
                    (forward_solve_tiled (fun _ => 1) 1 (fun _ _ => 1)) j)))
      ∧ (∀ k < 1,
          ∑ m ∈ Finset.range 1,
            (∑ j ∈ Finset.range 1,
                @blockL 1 (fun _ => 1) 1 k j
                  * (@blockL 1 (fun _ => 1) 1 m j).transpose).mulVec
              (backward_solve_tiled (fun _ => 1) 1
                (forward_solve_tiled (fun _ => 1) 1 (fun _ _ => 1)) m)
            = (fun _ _ => (1 : ℚ)) k)) := by
  have hU : ∀ k < 1, IsUnit (((fun _ => (1 : Matrix (Fin 1) (Fin 1) ℚ)) (k * 1 + k)).det) :=
    fun k _ => by simp
  exact ⟨hU, forward_backward_solve _ _ _ hU⟩

/-! ### Theorems for claim C9 -/

section Prediction

variable {nr nc : ℕ} (tiles : ℕ → Matrix (Fin nr) (Fin nc) ℚ)
  (vector : ℕ → Fin nc → ℚ) (n_tiles : ℕ)

lemma pred_inner_frame (k x : ℕ) (hx : x ≠ k) (l : List ℕ) (r : ℕ → Fin nr → ℚ) :
    (l.foldl (fun r2 m =>
        Function.update r2 k (gemv 1 (tiles (k * n_tiles + m)) (vector m) (r2 k))) r) x
      = r x := by
  induction l generalizing r with
  | nil => rfl
  | cons a t ih => rw [List.foldl_cons, ih, Function.update_noteq hx]

lemma pred_inner_at (k : ℕ) (l : List ℕ) (r : ℕ → Fin nr → ℚ) :
    (l.foldl (fun r2 m =>
        Function.update r2 k (gemv 1 (tiles (k * n_tiles + m)) (vector m) (r2 k))) r) k
      = r k + (l.map fun m => (tiles (k * n_tiles + m)).mulVec (vector m)).sum := by
  induction l generalizing r with
  | nil => rw [List.foldl_nil, List.map_nil, List.sum_nil, add_zero]
  | cons a t ih =>
    rw [List.foldl_cons, ih, Function.update_same, List.map_cons, List.sum_cons, gemv,
      one_smul, add_assoc]

lemma pred_outer_frame (k : ℕ) (l : List ℕ) (hk : k ∉ l) (r : ℕ → Fin nr → ℚ) :
    (l.foldl (fun r k' => (List.range n_tiles).foldl
        (fun r2 m =>
          Function.update r2 k' (gemv 1 (tiles (k' * n_tiles + m)) (vector m) (r2 k')))
        r) r) k
      = r k := by
  induction l generalizing r with
  | nil => rfl
  | cons a t ih =>
    rw [List.foldl_cons, ih (fun h => hk (List.mem_cons_of_mem a h))]
    exact pred_inner_frame tiles vector n_tiles a k
      (fun h => hk (h ▸ List.mem_cons_self a t)) _ r

lemma pred_outer_at (k : ℕ) (l : List ℕ) (hnd : l.Nodup) (hk : k ∈ l)
    (r : ℕ → Fin nr → ℚ) :
    (l.foldl (fun r k' => (List.range n_tiles).foldl
        (fun r2 m =>
          Function.update r2 k' (gemv 1 (tiles (k' * n_tiles + m)) (vector m) (r2 k')))
        r) r) k
      = r k + ((List.range n_tiles).map
          fun m => (tiles (k * n_tiles + m)).mulVec (vector m)).sum := by
  induction l generalizing r with
  | nil => cases hk
  | cons a t ih =>
    rw [List.nodup_cons] at hnd
    rw [List.mem_cons] at hk
    rcases hk with rfl | hk
    · rw [List.foldl_cons, pred_outer_frame tiles vector n_tiles k t hnd.1,
        pred_inner_at]
    · rw [List.foldl_cons, ih hnd.2 hk,
        pred_inner_frame tiles vector n_tiles a k (fun h => hnd.1 (h ▸ hk))]

lemma list_map_sum_range (f : ℕ → Fin nr → ℚ) (n : ℕ) :
    ((List.range n).map f).sum = ∑ m ∈ Finset.range n, f m := by
  induction n with
  | zero => rfl
  | succ n ih =>
    rw [List.range_succ, List.map_append, List.sum_append, ih, Finset.sum_range_succ,
      List.map_cons, List.map_nil, List.sum_cons, List.sum_nil, add_zero]

/-- C9: prediction_tiled accumulates into, rather than overwrites, its
output: result tile k ends as its initial contents plus the sum over all m
of covariance tile (k,m) applied to input tile m (the gemv kernel adds
alpha * A * a on top of the existing b, beta = 1), and exactly
n_tiles * m_tiles kernel invocations are issued. -/
theorem prediction_accumulates {nr nc : ℕ} (tiles : ℕ → Matrix (Fin nr) (Fin nc) ℚ)
    (vector : ℕ → Fin nc → ℚ) (rhs : ℕ → Fin nr → ℚ) (n_tiles m_tiles k : ℕ)
    (hk : k < m_tiles) :
    prediction_tiled tiles vector rhs n_tiles m_tiles k
      = rhs k + ∑ m ∈ Finset.range n_tiles, (tiles (k * n_tiles + m)).mulVec (vector m)
    ∧ (prediction_trace n_tiles m_tiles).length = n_tiles * m_tiles := by
  constructor
  · rw [prediction_tiled, pred_outer_at tiles vector n_tiles k (List.range m_tiles)
      (List.nodup_range m_tiles) (List.mem_range.mpr hk) rhs, list_map_sum_range]
  · rw [prediction_trace, List.length_flatMap]
    have h : (List.length ∘ fun k : ℕ => (List.range n_tiles).map fun m => (k, m))
        = fun _ : ℕ => n_tiles := by
      funext k
      simp
    rw [h, List.map_const', List.length_range, List.sum_replicate, smul_eq_mul, mul_comm]

/-- Witness for C9 at a 1 x 1 single-tile instance. -/
theorem prediction_accumulates_witness :
    (0 : ℕ) < 1 ∧
      (prediction_tiled (fun _ => (1 : Matrix (Fin 1) (Fin 1) ℚ)) (fun _ _ => 1)
          (fun _ _ => 1) 1 1 0
        = (fun _ _ => (1 : ℚ)) 0 + ∑ m ∈ Finset.range 1,
            ((fun _ => (1 : Matrix (Fin 1) (Fin 1) ℚ)) (0 * 1 + m)).mulVec
              ((fun _ _ => (1 : ℚ)) m)
      ∧ (prediction_trace 1 1).length = 1 * 1) := by
  refine ⟨by decide, ?_⟩
  exact prediction_accumulates _ _ _ 1 1 0 (by decide)

end Prediction

/-! ### Theorems for claim C10 -/

section Posterior

lemma slot_inj (m_tiles i j i' j' : ℕ) (hj : j < m_tiles) (hj' : j' < m_tiles)
    (h : i * m_tiles + j = i' * m_tiles + j') : i = i' ∧ j = j' := by
  have hmt : 0 < m_tiles := by omega
  have h1 : (i * m_tiles + j) / m_tiles = i := by
    rw [mul_comm, Nat.mul_add_div hmt, Nat.div_eq_of_lt hj, add_zero]
  have h2 : (i' * m_tiles + j') / m_tiles = i' := by
    rw [mul_comm, Nat.mul_add_div hmt, Nat.div_eq_of_lt hj', add_zero]
  have hii : i = i' := by rw [← h1, ← h2, h]
  refine ⟨hii, ?_⟩
  subst hii
  exact Nat.add_left_cancel h

lemma mem_posteriorIdx (n_tiles m_tiles : ℕ) (p : ℕ × ℕ × ℕ)
    (hp : p ∈ posteriorIdx n_tiles m_tiles) :
    p.1 < m_tiles ∧ p.2.1 = p.1 ∧ p.2.2 < n_tiles := by
  rcases p with ⟨i, j, m⟩
  rw [posteriorIdx, List.mem_flatMap] at hp
  obtain ⟨a, ha, hp⟩ := hp
  rw [List.mem_range] at ha
  rw [List.mem_flatMap] at hp
  obtain ⟨c, hc, hp⟩ := hp
  rw [show List.range' a 1 = [a] from List.range'_one, List.mem_cons] at hc
  rcases hc with rfl | hc
  · rw [List.mem_map] at hp
    obtain ⟨m', hm', heq⟩ := hp
    rw [List.mem_range] at hm'
    injection heq with e1 e2
    injection e2 with e2 e3
    subst e1
    subst e2
    subst e3
    exact ⟨ha, rfl, hm'⟩
  · cases hc

lemma posterior_fold_frame {α : Type} (g : α → α → α → α) (st : PosteriorState α)
    (n_tiles m_tiles s : ℕ) (l : List (ℕ × ℕ × ℕ))
    (hl : ∀ p ∈ l, p.1 * m_tiles + p.2.1 ≠ s) (K : ℕ → α) :
    (l.foldl (fun K p => Function.update K (p.1 * m_tiles + p.2.1)
        (g (st.CC (p.1 * n_tiles + p.2.2)) (st.tCC (p.2.2 * m_tiles + p.1))
          (K (p.1 * m_tiles + p.2.1)))) K) s
      = K s := by
  induction l generalizing K with
  | nil => rfl
  | cons a t ih =>
    rw [List.foldl_cons, ih (fun p hp => hl p (List.mem_cons_of_mem a hp)),
      Function.update_noteq (hl a (List.mem_cons_self a t)).symm]

lemma count_flatMap_replicate (f : ℕ → ℕ) (n : ℕ) :
    ∀ l : List ℕ, l.Nodup → (∀ a ∈ l, ∀ c ∈ l, f a = f c → a = c) → ∀ i ∈ l,
      (l.flatMap fun a => List.replicate n (f a)).count (f i) = n := by
  intro l
  induction l with
  | nil => intro _ _ i hi; cases hi
  | cons a t ih =>
    intro hnd hinj i hi
    rw [List.nodup_cons] at hnd
    rw [List.flatMap_cons, List.count_append]
    rw [List.mem_cons] at hi
    rcases hi with rfl | hi
    · rw [List.count_replicate_self]
      have hz : (t.flatMap fun c => List.replicate n (f c)).count (f i) = 0 := by
        rw [List.count_eq_zero]
        intro hmem
        rw [List.mem_flatMap] at hmem
        obtain ⟨c, hc, hmc⟩ := hmem
        have hfc := List.eq_of_mem_replicate hmc
        have hic : i = c := hinj i (List.mem_cons_self i t) c (List.mem_cons_of_mem i hc) hfc
        exact hnd.1 (hic ▸ hc)
      rw [hz, add_zero]
    · have hne : f i ≠ f a := fun h =>
        hnd.1 ((hinj i (List.mem_cons_of_mem a hi) a (List.mem_cons_self a t) h) ▸ hi)
      have hz : (List.replicate n (f a)).count (f i) = 0 := by
        rw [List.count_eq_zero]
        intro hmem
        exact hne (List.eq_of_mem_replicate hmem)
      rw [hz, zero_add]
      exact ih hnd.2
        (fun x hx y hy => hinj x (List.mem_cons_of_mem a hx) y (List.mem_cons_of_mem a hy))
        i hi

lemma posterior_trace_eq (n_tiles m_tiles : ℕ) :
    posterior_trace n_tiles m_tiles
      = (List.range m_tiles).flatMap fun i => List.replicate n_tiles (i * m_tiles + i) := by
  rw [posterior_trace, posteriorIdx, List.map_flatMap]
  congr 1
  funext i
  rw [List.map_flatMap, show List.range' i 1 = [i] from List.range'_one,
    List.flatMap_cons, List.flatMap_nil, List.append_nil, List.map_map]
  rw [show ((fun p : ℕ × ℕ × ℕ => p.1 * m_tiles + p.2.1) ∘ fun m => (i, i, m))
      = fun _ : ℕ => i * m_tiles + i from rfl]
  rw [List.map_const', List.length_range]

/-- C10: posterior_covariance_tiled modifies only the diagonal grid slots
i*m_tiles+i of the prior-covariance tile grid: the two input grids are
returned untouched, every off-diagonal slot of the prior grid keeps its
original value, and exactly n_tiles accumulation kernels are issued into
each diagonal slot. -/
theorem posterior_covariance_diag_only {α : Type} (g : α → α → α → α)
    (st : PosteriorState α) (n_tiles m_tiles i j : ℕ)
    (hi : i < m_tiles) (hj : j < m_tiles) (hij : i ≠ j) :
    (posterior_covariance_tiled g st n_tiles m_tiles).CC = st.CC
    ∧ (posterior_covariance_tiled g st n_tiles m_tiles).tCC = st.tCC
    ∧ (posterior_covariance_tiled g st n_tiles m_tiles).K (i * m_tiles + j)
        = st.K (i * m_tiles + j)
    ∧ (posterior_trace n_tiles m_tiles).count (i * m_tiles + i) = n_tiles := by
  refine ⟨rfl, rfl, ?_, ?_⟩
  · show ((posteriorIdx n_tiles m_tiles).foldl
        (fun K p => Function.update K (p.1 * m_tiles + p.2.1)
          (g (st.CC (p.1 * n_tiles + p.2.2)) (st.tCC (p.2.2 * m_tiles + p.1))
            (K (p.1 * m_tiles + p.2.1)))) st.K) (i * m_tiles + j)
      = st.K (i * m_tiles + j)
    refine posterior_fold_frame g st n_tiles m_tiles (i * m_tiles + j) _
      (fun p hp hcontra => ?_) st.K
    obtain ⟨h1, h2, _⟩ := mem_posteriorIdx n_tiles m_tiles p hp
    obtain ⟨hpi, hpj⟩ := slot_inj m_tiles p.1 p.2.1 i j (by omega) hj hcontra
    exact hij (by omega)
  · rw [posterior_trace_eq]
    refine count_flatMap_replicate (fun i => i * m_tiles + i) n_tiles
      (List.range m_tiles) (List.nodup_range m_tiles) (fun a ha c hc h => ?_)
      i (List.mem_range.mpr hi)
    simp only [] at h
    rw [← Nat.mul_succ, ← Nat.mul_succ] at h
    exact Nat.eq_of_mul_eq_mul_right (by omega) h

/-- Witness for C10 at m_tiles = 2, n_tiles = 1 over natural-number tiles. -/
theorem posterior_covariance_diag_only_witness :
    (0 : ℕ) < 2 ∧ (1 : ℕ) < 2 ∧ (0 : ℕ) ≠ 1 ∧
      ((posterior_covariance_tiled (fun a c d : ℕ => a + c + d)
          (⟨fun _ => 0, fun _ => 0, fun _ => 0⟩ : PosteriorState ℕ) 1 2).CC
        = (⟨fun _ => 0, fun _ => 0, fun _ => 0⟩ : PosteriorState ℕ).CC
      ∧ (posterior_covariance_tiled (fun a c d : ℕ => a + c + d)
          (⟨fun _ => 0, fun _ => 0, fun _ => 0⟩ : PosteriorState ℕ) 1 2).tCC
        = (⟨fun _ => 0, fun _ => 0, fun _ => 0⟩ : PosteriorState ℕ).tCC
      ∧ (posterior_covariance_tiled (fun a c d : ℕ => a + c + d)
          (⟨fun _ => 0, fun _ => 0, fun _ => 0⟩ : PosteriorState ℕ) 1 2).K (0 * 2 + 1)
        = (⟨fun _ => 0, fun _ => 0, fun _ => 0⟩ : PosteriorState ℕ).K (0 * 2 + 1)
      ∧ (posterior_trace 1 2).count (0 * 2 + 0) = 1) := by
  refine ⟨by decide, by decide, by decide, ?_⟩
  exact posterior_covariance_diag_only (fun a c d : ℕ => a + c + d)
    (⟨fun _ => 0, fun _ => 0, fun _ => 0⟩ : PosteriorState ℕ) 1 2 0 1
    (by decide) (by decide) (by decide)

end Posterior

/-! ### Theorems for claim C3

The numeric correctness of the tiled Cholesky, under the file's convention of
exact-real kernels: on a positive-definite assembled input the factor
reassembled from the output tile grid reproduces the input exactly, and the
single-tile case is one POTRF whose result is the dense kernel on the whole
matrix.  The development first derives a dense Cholesky factorization from
Mathlib's LDL decomposition, proves the lower-triangular positive-diagonal
factor unique (so potrfKernel is pinned down), characterizes every slot the
three loop phases of a stage write, and runs the standard right-looking
invariant over the stages. -/

/-- Every positive-definite real matrix over a finite linearly ordered index
type has a lower-triangular factorization with strictly positive diagonal,
obtained from the LDL decomposition by scaling with the square roots of the
pivots and fixing signs. -/
lemma exists_lower_cholesky {ι : Type} [Fintype ι] [LinearOrder ι]
    [LocallyFiniteOrderBot ι] (S : Matrix ι ι ℝ) (hS : S.PosDef) :
    ∃ L : Matrix ι ι ℝ,
      (∀ p q : ι, p < q → L p q = 0) ∧ (∀ p, 0 < L p p) ∧ L * L.transpose = S := by
  haveI := LDL.invertibleLowerInv hS
  -- the inverse lower factor is lower triangular
  have hinv_tri : (LDL.lowerInv hS).BlockTriangular OrderDual.toDual := by
    intro i j hij
    exact LDL.lowerInv_triangular hS (by exact hij)
  -- hence so is the lower factor itself
  have hlower_tri : (LDL.lower hS).BlockTriangular OrderDual.toDual := by
    rw [LDL.lower]
    exact Matrix.blockTriangular_inv_of_blockTriangular hinv_tri
  -- positivity of the pivots
  have hd_pos : ∀ i, 0 < LDL.diagEntries hS i := by
    intro i
    have hv : LDL.lowerInv hS i ≠ 0 := by
      intro hv
      have hdet : (LDL.lowerInv hS).det = 0 :=
        Matrix.det_eq_zero_of_row_eq_zero i (fun j => congrFun hv j)
      exact ((Matrix.isUnit_det_of_invertible (LDL.lowerInv hS)).ne_zero) hdet
    have hstar : star (LDL.lowerInv hS i) = LDL.lowerInv hS i := by
      funext j; exact star_trivial _
    have h2 := hS.2 (LDL.lowerInv hS i) hv
    have : LDL.diagEntries hS i =
        Matrix.dotProduct (star (LDL.lowerInv hS i)) (S.mulVec (LDL.lowerInv hS i)) := by
      show (inner ((WithLp.equiv 2 _).symm (star (LDL.lowerInv hS i)))
        ((WithLp.equiv 2 _).symm (S.mulVec (star (LDL.lowerInv hS i)))) : ℝ) = _
      rw [EuclideanSpace.inner_piLp_equiv_symm, star_star, hstar]
    rw [this]
    exact h2
  -- the lower factor has nonzero diagonal
  have hlower_det : (LDL.lower hS).det ≠ 0 := by
    rw [LDL.lower, Matrix.det_nonsing_inv]
    have := (Matrix.isUnit_det_of_invertible (LDL.lowerInv hS)).ne_zero
    simp only [Ring.inverse_eq_inv']
    exact inv_ne_zero this
  have hlower_diag : ∀ i, LDL.lower hS i i ≠ 0 := by
    intro i
    have h := Matrix.det_of_lowerTriangular (LDL.lower hS) hlower_tri
    rw [h] at hlower_det
    exact Finset.prod_ne_zero_iff.mp hlower_det i (Finset.mem_univ i)
  -- the candidate factor: lower * sqrt of pivots
  set L0 : Matrix ι ι ℝ :=
    LDL.lower hS * Matrix.diagonal (fun i => Real.sqrt (LDL.diagEntries hS i)) with hL0
  have hL0_tri : L0.BlockTriangular OrderDual.toDual :=
    Matrix.BlockTriangular.mul hlower_tri (Matrix.blockTriangular_diagonal _)
  have hL0_eq : L0 * L0.transpose = S := by
    have hconj : (LDL.lower hS).conjTranspose = (LDL.lower hS).transpose := by
      ext i j
      simp [Matrix.conjTranspose_apply, Matrix.transpose_apply]
    calc L0 * L0.transpose
        = LDL.lower hS * (Matrix.diagonal (fun i => Real.sqrt (LDL.diagEntries hS i)) *
            (Matrix.diagonal (fun i => Real.sqrt (LDL.diagEntries hS i))).transpose) *
            (LDL.lower hS).transpose := by
          rw [hL0, Matrix.transpose_mul]
          rw [Matrix.mul_assoc, Matrix.mul_assoc, Matrix.mul_assoc]
      _ = LDL.lower hS * LDL.diag hS * (LDL.lower hS).transpose := by
          rw [Matrix.diagonal_transpose, Matrix.diagonal_mul_diagonal, LDL.diag]
          have hss : (fun i => Real.sqrt (LDL.diagEntries hS i) *
              Real.sqrt (LDL.diagEntries hS i)) = LDL.diagEntries hS :=
            funext fun i => Real.mul_self_sqrt (hd_pos i).le
          rw [hss]
      _ = S := by rw [← hconj]; exact LDL.lower_conj_diag hS
  have hL0_diag : ∀ i, L0 i i ≠ 0 := by
    intro i
    rw [hL0, Matrix.mul_diagonal]
    exact mul_ne_zero (hlower_diag i) (Real.sqrt_ne_zero'.mpr (hd_pos i))
  -- fix the signs of the diagonal
  set sg : ι → ℝ := fun i => if 0 < L0 i i then 1 else -1 with hsg
  refine ⟨L0 * Matrix.diagonal sg, ?_, ?_, ?_⟩
  · intro p q hpq
    exact Matrix.BlockTriangular.mul hL0_tri (Matrix.blockTriangular_diagonal _)
      (by simpa using hpq)
  · intro p
    rw [Matrix.mul_diagonal, hsg]
    rcases lt_or_gt_of_ne (hL0_diag p) with h | h
    · simp only [if_neg (not_lt.mpr h.le)]
      nlinarith
    · simp only [if_pos h]
      nlinarith
  · rw [Matrix.transpose_mul, Matrix.diagonal_transpose, Matrix.mul_assoc,
      ← Matrix.mul_assoc (Matrix.diagonal sg), Matrix.diagonal_mul_diagonal]
    have : (fun i => sg i * sg i) = fun _ => (1 : ℝ) := by
      funext i
      rw [hsg]
      by_cases h : 0 < L0 i i <;> simp [h]
    rw [this, Matrix.diagonal_one, Matrix.one_mul, hL0_eq]

/-- The dense factorization specialized to the block index type
(tile row, intra-tile row) in lexicographic order. -/
lemma exists_lower_cholesky_prod {nt b : ℕ}
    (S : Matrix (Fin nt × Fin b) (Fin nt × Fin b) ℝ) (hS : S.PosDef) :
    ∃ L : Matrix (Fin nt × Fin b) (Fin nt × Fin b) ℝ,
      (∀ p q : Fin nt × Fin b, p.1 < q.1 ∨ (p.1 = q.1 ∧ p.2 < q.2) → L p q = 0)
      ∧ (∀ p, 0 < L p p) ∧ L * L.transpose = S := by
  rcases Nat.eq_zero_or_pos nt with rfl | hnt
  · exact ⟨S, fun p => Fin.elim0 p.1, fun p => Fin.elim0 p.1, by
      ext p q; exact Fin.elim0 p.1⟩
  rcases Nat.eq_zero_or_pos b with rfl | hb
  · exact ⟨S, fun p => Fin.elim0 p.2, fun p => Fin.elim0 p.2, by
      ext p q; exact Fin.elim0 p.2⟩
  haveI : NeZero nt := ⟨hnt.ne.symm⟩
  haveI : NeZero b := ⟨hb.ne.symm⟩
  letI : LocallyFiniteOrder (Lex (Fin nt × Fin b)) := Fintype.toLocallyFiniteOrder
  obtain ⟨L, hTri, hDiag, hEq⟩ :=
    exists_lower_cholesky (ι := Lex (Fin nt × Fin b)) S hS
  refine ⟨L, ?_, hDiag, hEq⟩
  intro p q hpq
  exact hTri (toLex p) (toLex q) ((Prod.Lex.lt_iff p q).mpr hpq)

/-- A lower-triangular factor with positive diagonal is unique, column by
column. -/
lemma cholesky_factor_unique {b : ℕ} {L M : Matrix (Fin b) (Fin b) ℝ}
    (hLt : LowerTri L) (hLd : PosDiag L) (hMt : LowerTri M) (hMd : PosDiag M)
    (h : L * L.transpose = M * M.transpose) : L = M := by
  have key : ∀ jv : ℕ, ∀ j : Fin b, (j : ℕ) = jv → ∀ i : Fin b, L i j = M i j := by
    intro jv
    induction jv using Nat.strong_induction_on with
    | _ jv IH =>
      intro j hj
      have IH' : ∀ c : Fin b, c < j → ∀ i : Fin b, L i c = M i c := by
        intro c hc i
        exact IH (c : ℕ) (hj ▸ hc) c rfl i
      -- entry (i, j) of the product identity reduces to the single c = j term
      have hentry : ∀ i : Fin b, j ≤ i → L i j * L j j = M i j * M j j := by
        intro i hij
        have h0 := congrFun (congrFun h i) j
        rw [Matrix.mul_apply, Matrix.mul_apply] at h0
        have hdiff : (∑ c : Fin b,
            (L i c * L.transpose c j - M i c * M.transpose c j)) = 0 := by
          rw [Finset.sum_sub_distrib, h0, sub_self]
        have hsingle : (∑ c : Fin b,
            (L i c * L.transpose c j - M i c * M.transpose c j))
            = L i j * L j j - M i j * M j j := by
          refine Finset.sum_eq_single j ?_ ?_
          · intro c _ hcj
            rw [Matrix.transpose_apply, Matrix.transpose_apply]
            rcases lt_or_gt_of_ne hcj with hc | hc
            · rw [IH' c hc i, IH' c hc j, sub_self]
            · rw [hLt j c hc, hMt j c hc, mul_zero, mul_zero, sub_self]
          · intro hj'
            exact absurd (Finset.mem_univ j) hj'
        rw [hsingle] at hdiff
        exact sub_eq_zero.mp hdiff
      have hdiag : L j j = M j j := by
        have h0 := hentry j le_rfl
        rcases mul_self_eq_mul_self_iff.mp h0 with h1 | h1
        · exact h1
        · exfalso
          have := hMd j
          have := hLd j
          nlinarith
      intro i
      rcases lt_trichotomy i j with hij | rfl | hij
      · rw [hLt i j hij, hMt i j hij]
      · exact hdiag
      · have h0 := hentry i hij.le
        rw [hdiag] at h0
        exact mul_right_cancel₀ (hMd j).ne' h0
  ext i j
  exact key (j : ℕ) j rfl i

/-- potrfKernel recovers the factor exactly on any tile that has one. -/
lemma potrfKernel_eq {b : ℕ} {G : Matrix (Fin b) (Fin b) ℝ}
    (hGt : LowerTri G) (hGd : PosDiag G) :
    potrfKernel (G * G.transpose) = G := by
  have hex : ∃ L, LowerTri L ∧ PosDiag L ∧
      L * L.transpose = G * G.transpose := ⟨G, hGt, hGd, rfl⟩
  rw [potrfKernel, dif_pos hex]
  obtain ⟨ht, hd, heq⟩ := hex.choose_spec
  exact cholesky_factor_unique ht hd hGt hGd heq

/-- A lower-triangular tile with positive diagonal has positive determinant. -/
lemma lowerTri_det_pos {b : ℕ} {G : Matrix (Fin b) (Fin b) ℝ}
    (hGt : LowerTri G) (hGd : PosDiag G) : 0 < G.det := by
  have htri : G.BlockTriangular OrderDual.toDual := by
    intro i j hij
    exact hGt i j (by exact hij)
  rw [Matrix.det_of_lowerTriangular G htri]
  exact Finset.prod_pos fun i _ => hGd i

/-- The panel solve undoes multiplication by the transposed factor. -/
lemma trsm_cancel {b : ℕ} {G : Matrix (Fin b) (Fin b) ℝ}
    (hGt : LowerTri G) (hGd : PosDiag G) (B : Matrix (Fin b) (Fin b) ℝ) :
    trsmKernel G (B * G.transpose) = B := by
  rw [trsmKernel]
  have hdet : IsUnit G.transpose.det := by
    rw [Matrix.det_transpose]
    exact (lowerTri_det_pos hGt hGd).ne'.isUnit
  exact Matrix.mul_nonsing_inv_cancel_right G.transpose B hdet

lemma trsmLoop_frame {b : ℕ} (nt k : ℕ) (l : List ℕ)
    (T : ℕ → Matrix (Fin b) (Fin b) ℝ) (s : ℕ) (hs : ∀ m ∈ l, m * nt + k ≠ s) :
    (l.foldl (fun S m => Function.update S (m * nt + k)
      (trsmKernel (S (k * nt + k)) (S (m * nt + k)))) T) s = T s := by
  induction l generalizing T with
  | nil => rfl
  | cons a t ih =>
    rw [List.foldl_cons, ih _ fun m hm => hs m (List.mem_cons_of_mem a hm)]
    exact Function.update_noteq (fun h => hs a (List.mem_cons_self a t) h.symm) _ _

lemma trsmLoop_at {b : ℕ} (nt k : ℕ) (l : List ℕ) (hnd : l.Nodup)
    (hbd : ∀ m ∈ l, k < m ∧ m < nt) (hk : k < nt) (m : ℕ) (hm : m ∈ l)
    (T : ℕ → Matrix (Fin b) (Fin b) ℝ) :
    (l.foldl (fun S m => Function.update S (m * nt + k)
      (trsmKernel (S (k * nt + k)) (S (m * nt + k)))) T) (m * nt + k)
    = trsmKernel (T (k * nt + k)) (T (m * nt + k)) := by
  induction l generalizing T with
  | nil => cases hm
  | cons a t ih =>
    have hat : a ∉ t := (List.nodup_cons.mp hnd).1
    rw [List.foldl_cons]
    rcases List.mem_cons.mp hm with rfl | hm'
    · rw [trsmLoop_frame nt k t _ _ ?_]
      · exact Function.update_same _ _ _
      · intro m' hm' h
        obtain ⟨he, -⟩ := slot_inj nt m' k m k hk hk h
        exact hat (he ▸ hm')
    · have hma : m ≠ a := fun h => hat (h ▸ hm')
      obtain ⟨hka, -⟩ := hbd a (List.mem_cons_self a t)
      have hkk : k * nt + k ≠ a * nt + k := by
        intro h
        obtain ⟨he, -⟩ := slot_inj nt k k a k hk hk h
        omega
      have hmk : m * nt + k ≠ a * nt + k := by
        intro h
        obtain ⟨he, -⟩ := slot_inj nt m k a k hk hk h
        exact hma he
      rw [ih (List.nodup_cons.mp hnd).2 (fun x hx => hbd x (List.mem_cons_of_mem a hx))
        hm' _, Function.update_noteq hkk, Function.update_noteq hmk]

lemma gemmLoop_frame {b : ℕ} (nt m k : ℕ) (l : List ℕ)
    (S : ℕ → Matrix (Fin b) (Fin b) ℝ) (s : ℕ) (hs : ∀ n ∈ l, m * nt + n ≠ s) :
    (l.foldl (fun S2 n => Function.update S2 (m * nt + n)
      (gemmKernel (S2 (m * nt + k)) (S2 (n * nt + k)) (S2 (m * nt + n)))) S) s
    = S s := by
  induction l generalizing S with
  | nil => rfl
  | cons a t ih =>
    rw [List.foldl_cons, ih _ fun n hn => hs n (List.mem_cons_of_mem a hn)]
    exact Function.update_noteq (fun h => hs a (List.mem_cons_self a t) h.symm) _ _

lemma gemmLoop_at {b : ℕ} (nt m k : ℕ) (l : List ℕ) (hnd : l.Nodup)
    (hbd : ∀ n ∈ l, k < n ∧ n < m ∧ m < nt) (hk : k < nt) (n : ℕ) (hn : n ∈ l)
    (S : ℕ → Matrix (Fin b) (Fin b) ℝ) :
    (l.foldl (fun S2 n => Function.update S2 (m * nt + n)
      (gemmKernel (S2 (m * nt + k)) (S2 (n * nt + k)) (S2 (m * nt + n)))) S)
      (m * nt + n)
    = gemmKernel (S (m * nt + k)) (S (n * nt + k)) (S (m * nt + n)) := by
  induction l generalizing S with
  | nil => cases hn
  | cons a t ih =>
    have hat : a ∉ t := (List.nodup_cons.mp hnd).1
    rw [List.foldl_cons]
    rcases List.mem_cons.mp hn with rfl | hn'
    · rw [gemmLoop_frame nt m k t _ _ ?_]
      · exact Function.update_same _ _ _
      · intro n' hn' h
        exact hat ((Nat.add_left_cancel h) ▸ hn')
    · have hna : n ≠ a := fun h => hat (h ▸ hn')
      obtain ⟨hka, ham, hmnt⟩ := hbd a (List.mem_cons_self a t)
      obtain ⟨hkn, hnm, -⟩ := hbd n (List.mem_cons_of_mem a hn')
      have h1 : m * nt + k ≠ m * nt + a := by
        intro h
        have := Nat.add_left_cancel h
        omega
      have h2 : n * nt + k ≠ m * nt + a := by
        intro h
        obtain ⟨he1, he2⟩ := slot_inj nt n k m a hk (by omega) h
        omega
      have h3 : m * nt + n ≠ m * nt + a := fun h => hna (Nat.add_left_cancel h)
      rw [ih (List.nodup_cons.mp hnd).2 (fun x hx => hbd x (List.mem_cons_of_mem a hx))
        hn' _, Function.update_noteq h1, Function.update_noteq h2,
        Function.update_noteq h3]

lemma updStep_frame {b : ℕ} (nt k a : ℕ) (U : ℕ → Matrix (Fin b) (Fin b) ℝ)
    (s : ℕ) (h1 : a * nt + a ≠ s) (h2 : ∀ n, k < n → n < a → a * nt + n ≠ s) :
    ((List.range' (k + 1) (a - (k + 1))).foldl
      (fun S2 n => Function.update S2 (a * nt + n)
        (gemmKernel (S2 (a * nt + k)) (S2 (n * nt + k)) (S2 (a * nt + n))))
      (Function.update U (a * nt + a)
        (syrkKernel (U (a * nt + a)) (U (a * nt + k))))) s = U s := by
  rw [gemmLoop_frame nt a k _ _ _ ?_]
  · exact Function.update_noteq (fun h => h1 h.symm) _ _
  · intro n hn
    rw [List.mem_range'_1] at hn
    exact h2 n (by omega) (by omega)

lemma updLoop_frame {b : ℕ} (nt k : ℕ) (l : List ℕ)
    (U : ℕ → Matrix (Fin b) (Fin b) ℝ) (s : ℕ)
    (hs : ∀ m ∈ l, m * nt + m ≠ s ∧ ∀ n, k < n → n < m → m * nt + n ≠ s) :
    (l.foldl (fun S m =>
      (List.range' (k + 1) (m - (k + 1))).foldl
        (fun S2 n => Function.update S2 (m * nt + n)
          (gemmKernel (S2 (m * nt + k)) (S2 (n * nt + k)) (S2 (m * nt + n))))
        (Function.update S (m * nt + m)
          (syrkKernel (S (m * nt + m)) (S (m * nt + k))))) U) s = U s := by
  induction l generalizing U with
  | nil => rfl
  | cons a t ih =>
    rw [List.foldl_cons, ih _ fun m hm => hs m (List.mem_cons_of_mem a hm)]
    exact updStep_frame nt k a U s (hs a (List.mem_cons_self a t)).1
      (hs a (List.mem_cons_self a t)).2

lemma updLoop_syrk {b : ℕ} (nt k : ℕ) (l : List ℕ) (hnd : l.Nodup)
    (hbd : ∀ m ∈ l, k < m ∧ m < nt) (hk : k < nt) (m : ℕ) (hm : m ∈ l)
    (U : ℕ → Matrix (Fin b) (Fin b) ℝ) :
    (l.foldl (fun S m =>
      (List.range' (k + 1) (m - (k + 1))).foldl
        (fun S2 n => Function.update S2 (m * nt + n)
          (gemmKernel (S2 (m * nt + k)) (S2 (n * nt + k)) (S2 (m * nt + n))))
        (Function.update S (m * nt + m)
          (syrkKernel (S (m * nt + m)) (S (m * nt + k))))) U) (m * nt + m)
    = syrkKernel (U (m * nt + m)) (U (m * nt + k)) := by
  induction l generalizing U with
  | nil => cases hm
  | cons a t ih =>
    have hat : a ∉ t := (List.nodup_cons.mp hnd).1
    rw [List.foldl_cons]
    obtain ⟨hka, hant⟩ := hbd a (List.mem_cons_self a t)
    rcases List.mem_cons.mp hm with rfl | hm'
    · rw [updLoop_frame nt k t _ _ ?_]
      · rw [gemmLoop_frame nt m k _ _ _ ?_]
        · exact Function.update_same _ _ _
        · intro n hn h
          rw [List.mem_range'_1] at hn
          have := Nat.add_left_cancel h
          omega
      · intro m' hm'
        obtain ⟨hkm', hm'nt⟩ := hbd m' (List.mem_cons_of_mem m hm')
        constructor
        · intro h
          obtain ⟨he, -⟩ := slot_inj nt m' m' m m (by omega) (by omega) h
          exact hat (he ▸ hm')
        · intro n hkn hnm' h
          obtain ⟨he, -⟩ := slot_inj nt m' n m m (by omega) (by omega) h
          exact hat (he ▸ hm')
    · obtain ⟨hkm, hmnt⟩ := hbd m (List.mem_cons_of_mem a hm')
      have hma : m ≠ a := fun h => hat (h ▸ hm')
      rw [ih (List.nodup_cons.mp hnd).2
        (fun x hx => hbd x (List.mem_cons_of_mem a hx)) hm' _]
      have e1 := updStep_frame nt k a U (m * nt + m)
        (by
          intro h
          obtain ⟨he, -⟩ := slot_inj nt a a m m (by omega) (by omega) h
          exact hma he.symm)
        (by
          intro n hkn hna h
          obtain ⟨he, -⟩ := slot_inj nt a n m m (by omega) (by omega) h
          exact hma he.symm)
      have e2 := updStep_frame nt k a U (m * nt + k)
        (by
          intro h
          obtain ⟨he, hb2⟩ := slot_inj nt a a m k (by omega) hk h
          omega)
        (by
          intro n hkn hna h
          obtain ⟨he, -⟩ := slot_inj nt a n m k (by omega) hk h
          exact hma he.symm)
      rw [e1, e2]

lemma updLoop_gemm {b : ℕ} (nt k : ℕ) (l : List ℕ) (hnd : l.Nodup)
    (hbd : ∀ m ∈ l, k < m ∧ m < nt) (hk : k < nt) (m n : ℕ) (hm : m ∈ l)
    (hkn : k < n) (hnm : n < m) (U : ℕ → Matrix (Fin b) (Fin b) ℝ) :
    (l.foldl (fun S m =>
      (List.range' (k + 1) (m - (k + 1))).foldl
        (fun S2 n => Function.update S2 (m * nt + n)
          (gemmKernel (S2 (m * nt + k)) (S2 (n * nt + k)) (S2 (m * nt + n))))
        (Function.update S (m * nt + m)
          (syrkKernel (S (m * nt + m)) (S (m * nt + k))))) U) (m * nt + n)
    = gemmKernel (U (m * nt + k)) (U (n * nt + k)) (U (m * nt + n)) := by
  induction l generalizing U with
  | nil => cases hm
  | cons a t ih =>
    have hat : a ∉ t := (List.nodup_cons.mp hnd).1
    rw [List.foldl_cons]
    obtain ⟨hka, hant⟩ := hbd a (List.mem_cons_self a t)
    rcases List.mem_cons.mp hm with rfl | hm'
    · -- the a = m iteration writes the slot via its inner GEMM loop
      rw [updLoop_frame nt k t _ _ ?_]
      · rw [gemmLoop_at nt m k _ (List.nodup_range' _ _)
          (by
            intro x hx
            rw [List.mem_range'_1] at hx
            exact ⟨by omega, by omega, hant⟩)
          hk n (by rw [List.mem_range'_1]; omega) _]
        have hu1 : Function.update U (m * nt + m)
            (syrkKernel (U (m * nt + m)) (U (m * nt + k))) (m * nt + k)
            = U (m * nt + k) := by
          refine Function.update_noteq ?_ _ _
          intro h
          have := Nat.add_left_cancel h
          omega
        have hu2 : Function.update U (m * nt + m)
            (syrkKernel (U (m * nt + m)) (U (m * nt + k))) (n * nt + k)
            = U (n * nt + k) := by
          refine Function.update_noteq ?_ _ _
          intro h
          obtain ⟨he, -⟩ := slot_inj nt n k m m hk (by omega) h
          omega
        have hu3 : Function.update U (m * nt + m)
            (syrkKernel (U (m * nt + m)) (U (m * nt + k))) (m * nt + n)
            = U (m * nt + n) := by
          refine Function.update_noteq ?_ _ _
          intro h
          have := Nat.add_left_cancel h
          omega
        rw [hu1, hu2, hu3]
      · intro m' hm'
        obtain ⟨hkm', hm'nt⟩ := hbd m' (List.mem_cons_of_mem m hm')
        have hm'm : m' ≠ m := fun h => hat (h ▸ hm')
        constructor
        · intro h
          obtain ⟨he, -⟩ := slot_inj nt m' m' m n (by omega) (by omega) h
          exact hm'm he
        · intro x hkx hxm' h
          obtain ⟨he, -⟩ := slot_inj nt m' x m n (by omega) (by omega) h
          exact hm'm he
    · obtain ⟨hkm, hmnt⟩ := hbd m (List.mem_cons_of_mem a hm')
      have hma : m ≠ a := fun h => hat (h ▸ hm')
      rw [ih (List.nodup_cons.mp hnd).2
        (fun x hx => hbd x (List.mem_cons_of_mem a hx)) hm' _]
      have e1 := updStep_frame nt k a U (m * nt + k)
        (by
          intro h
          obtain ⟨he, -⟩ := slot_inj nt a a m k (by omega) hk h
          omega)
        (by
          intro x hkx hxa h
          obtain ⟨he, -⟩ := slot_inj nt a x m k (by omega) hk h
          exact hma he.symm)
      have e2 := updStep_frame nt k a U (n * nt + k)
        (by
          intro h
          obtain ⟨he, hb2⟩ := slot_inj nt a a n k (by omega) hk h
          omega)
        (by
          intro x hkx hxa h
          obtain ⟨-, he2⟩ := slot_inj nt a x n k (by omega) hk h
          omega)
      have e3 := updStep_frame nt k a U (m * nt + n)
        (by
          intro h
          obtain ⟨he, -⟩ := slot_inj nt a a m n (by omega) (by omega) h
          exact hma he.symm)
        (by
          intro x hkx hxa h
          obtain ⟨he, -⟩ := slot_inj nt a x m n (by omega) (by omega) h
          exact hma he.symm)
      rw [e1, e2, e3]

lemma cholStageVal_potrf {b : ℕ} (nt k : ℕ) (hk : k < nt)
    (T : ℕ → Matrix (Fin b) (Fin b) ℝ) :
    cholStageVal nt k T (k * nt + k) = potrfKernel (T (k * nt + k)) := by
  have hupd : ∀ m ∈ List.range' (k + 1) (nt - (k + 1)),
      m * nt + m ≠ k * nt + k ∧
      ∀ n, k < n → n < m → m * nt + n ≠ k * nt + k := by
    intro m hm
    rw [List.mem_range'_1] at hm
    constructor
    · intro h
      obtain ⟨he, -⟩ := slot_inj nt m m k k (by omega) hk h
      omega
    · intro n hkn hnm h
      obtain ⟨he, -⟩ := slot_inj nt m n k k (by omega) hk h
      omega
  have htrsm : ∀ m ∈ List.range' (k + 1) (nt - (k + 1)),
      m * nt + k ≠ k * nt + k := by
    intro m hm h
    rw [List.mem_range'_1] at hm
    obtain ⟨he, -⟩ := slot_inj nt m k k k hk hk h
    omega
  simp only [cholStageVal]
  rw [updLoop_frame nt k _ _ _ hupd, trsmLoop_frame nt k _ _ _ htrsm]
  exact Function.update_same _ _ _

lemma cholStageVal_trsm {b : ℕ} (nt k m : ℕ) (hkm : k < m) (hmnt : m < nt)
    (T : ℕ → Matrix (Fin b) (Fin b) ℝ) :
    cholStageVal nt k T (m * nt + k)
    = trsmKernel (potrfKernel (T (k * nt + k))) (T (m * nt + k)) := by
  have hk : k < nt := by omega
  have hupd : ∀ x ∈ List.range' (k + 1) (nt - (k + 1)),
      x * nt + x ≠ m * nt + k ∧
      ∀ n, k < n → n < x → x * nt + n ≠ m * nt + k := by
    intro x hx
    rw [List.mem_range'_1] at hx
    constructor
    · intro h
      obtain ⟨he, he2⟩ := slot_inj nt x x m k (by omega) hk h
      omega
    · intro n hkn hnx h
      obtain ⟨-, he2⟩ := slot_inj nt x n m k (by omega) hk h
      omega
  simp only [cholStageVal]
  rw [updLoop_frame nt k _ _ _ hupd,
    trsmLoop_at nt k _ (List.nodup_range' _ _)
      (by
        intro x hx
        rw [List.mem_range'_1] at hx
        exact ⟨by omega, by omega⟩)
      hk m (by rw [List.mem_range'_1]; omega) _,
    Function.update_same,
    Function.update_noteq (by
      intro h
      obtain ⟨he, -⟩ := slot_inj nt m k k k hk hk h
      omega)]

lemma cholStageVal_syrk {b : ℕ} (nt k m : ℕ) (hkm : k < m) (hmnt : m < nt)
    (T : ℕ → Matrix (Fin b) (Fin b) ℝ) :
    cholStageVal nt k T (m * nt + m)
    = syrkKernel (T (m * nt + m))
        (trsmKernel (potrfKernel (T (k * nt + k))) (T (m * nt + k))) := by
  have hk : k < nt := by omega
  simp only [cholStageVal]
  rw [updLoop_syrk nt k _ (List.nodup_range' _ _)
    (by
      intro x hx
      rw [List.mem_range'_1] at hx
      exact ⟨by omega, by omega⟩)
    hk m (by rw [List.mem_range'_1]; omega) _]
  rw [trsmLoop_frame nt k _ _ _ (by
    intro x hx h
    rw [List.mem_range'_1] at hx
    obtain ⟨he, he2⟩ := slot_inj nt x k m m hk (by omega) h
    omega)]
  rw [trsmLoop_at nt k _ (List.nodup_range' _ _)
    (by
      intro x hx
      rw [List.mem_range'_1] at hx
      exact ⟨by omega, by omega⟩)
    hk m (by rw [List.mem_range'_1]; omega) _]
  rw [Function.update_noteq (by
      intro h
      obtain ⟨he, -⟩ := slot_inj nt m m k k (by omega) hk h
      omega),
    Function.update_same,
    Function.update_noteq (by
      intro h
      obtain ⟨he, -⟩ := slot_inj nt m k k k hk hk h
      omega)]

lemma cholStageVal_gemm {b : ℕ} (nt k m n : ℕ) (hkn : k < n) (hnm : n < m)
    (hmnt : m < nt) (T : ℕ → Matrix (Fin b) (Fin b) ℝ) :
    cholStageVal nt k T (m * nt + n)
    = gemmKernel (trsmKernel (potrfKernel (T (k * nt + k))) (T (m * nt + k)))
        (trsmKernel (potrfKernel (T (k * nt + k))) (T (n * nt + k)))
        (T (m * nt + n)) := by
  have hk : k < nt := by omega
  simp only [cholStageVal]
  rw [updLoop_gemm nt k _ (List.nodup_range' _ _)
    (by
      intro x hx
      rw [List.mem_range'_1] at hx
      exact ⟨by omega, by omega⟩)
    hk m n (by rw [List.mem_range'_1]; omega) hkn hnm _]
  rw [trsmLoop_at nt k _ (List.nodup_range' _ _)
    (by
      intro x hx
      rw [List.mem_range'_1] at hx
      exact ⟨by omega, by omega⟩)
    hk m (by rw [List.mem_range'_1]; omega) _]
  rw [trsmLoop_at nt k _ (List.nodup_range' _ _)
    (by
      intro x hx
      rw [List.mem_range'_1] at hx
      exact ⟨by omega, by omega⟩)
    hk n (by rw [List.mem_range'_1]; omega) _]
  rw [trsmLoop_frame nt k _ _ _ (by
    intro x hx h
    rw [List.mem_range'_1] at hx
    obtain ⟨-, he2⟩ := slot_inj nt x k m n hk (by omega) h
    omega)]
  rw [Function.update_same,
    Function.update_noteq (by
      intro h
      obtain ⟨he, -⟩ := slot_inj nt m k k k hk hk h
      omega),
    Function.update_noteq (by
      intro h
      obtain ⟨he, -⟩ := slot_inj nt n k k k hk hk h
      omega),
    Function.update_noteq (by
      intro h
      obtain ⟨he, he2⟩ := slot_inj nt m n k k (by omega) hk h
      omega)]

lemma cholStageVal_old {b : ℕ} (nt k i j : ℕ) (hjk : j < k) (hk : k < nt)
    (T : ℕ → Matrix (Fin b) (Fin b) ℝ) :
    cholStageVal nt k T (i * nt + j) = T (i * nt + j) := by
  have hj : j < nt := by omega
  simp only [cholStageVal]
  rw [updLoop_frame nt k _ _ _ (by
    intro x hx
    rw [List.mem_range'_1] at hx
    constructor
    · intro h
      obtain ⟨-, he2⟩ := slot_inj nt x x i j (by omega) hj h
      omega
    · intro y hky hyx h
      obtain ⟨-, he2⟩ := slot_inj nt x y i j (by omega) hj h
      omega)]
  rw [trsmLoop_frame nt k _ _ _ (by
    intro x hx h
    rw [List.mem_range'_1] at hx
    obtain ⟨-, he2⟩ := slot_inj nt x k i j hk hj h
    omega)]
  rw [Function.update_noteq (by
    intro h
    obtain ⟨-, he2⟩ := slot_inj nt i j k k hj hk h
    omega)]

/-- The right-looking invariant: after s stages every slot in a column below s
holds its final factor tile, and every untouched lower slot holds its input
minus the rank updates of the finished stages. -/
lemma cholesky_invariant {b : ℕ} (nt : ℕ) (A : ℕ → Matrix (Fin b) (Fin b) ℝ)
    (G : ℕ → ℕ → Matrix (Fin b) (Fin b) ℝ)
    (hGt : ∀ k, k < nt → LowerTri (G k k)) (hGd : ∀ k, k < nt → PosDiag (G k k))
    (hA : ∀ i j, j ≤ i → i < nt →
      A (i * nt + j) = ∑ c ∈ Finset.range (j + 1), G i c * (G j c).transpose) :
    ∀ s, s ≤ nt →
      (∀ i j, j ≤ i → i < nt → j < s → cholUpTo A nt s (i * nt + j) = G i j)
      ∧ (∀ i j, s ≤ j → j ≤ i → i < nt → cholUpTo A nt s (i * nt + j)
          = A (i * nt + j) - ∑ c ∈ Finset.range s, G i c * (G j c).transpose) := by
  intro s
  induction s with
  | zero =>
    intro _
    constructor
    · intro i j _ _ hj
      exact absurd hj (Nat.not_lt_zero j)
    · intro i j _ _ _
      simp [cholUpTo]
  | succ s ih =>
    intro hs1
    have hsnt : s < nt := hs1
    obtain ⟨P1, P2⟩ := ih (by omega)
    have hstep : cholUpTo A nt (s + 1) = cholStageVal nt s (cholUpTo A nt s) := by
      rw [cholUpTo, List.range_succ, List.foldl_append, List.foldl_cons,
        List.foldl_nil]
      rfl
    set S := cholUpTo A nt s with hSdef
    have F1 : S (s * nt + s) = G s s * (G s s).transpose := by
      rw [P2 s s le_rfl le_rfl hsnt, hA s s le_rfl hsnt, Finset.sum_range_succ,
        add_sub_cancel_left]
    have F2 : potrfKernel (S (s * nt + s)) = G s s := by
      rw [F1]
      exact potrfKernel_eq (hGt s hsnt) (hGd s hsnt)
    have F3 : ∀ m, s < m → m < nt →
        S (m * nt + s) = G m s * (G s s).transpose := by
      intro m hsm hmnt
      rw [P2 m s le_rfl hsm.le hmnt, hA m s hsm.le hmnt, Finset.sum_range_succ,
        add_sub_cancel_left]
    have F4 : ∀ m, s < m → m < nt →
        trsmKernel (potrfKernel (S (s * nt + s))) (S (m * nt + s)) = G m s := by
      intro m hsm hmnt
      rw [F2, F3 m hsm hmnt]
      exact trsm_cancel (hGt s hsnt) (hGd s hsnt) (G m s)
    constructor
    · intro i j hji hint hjs1
      rw [hstep]
      by_cases hjs : j < s
      · rw [cholStageVal_old nt s i j hjs hsnt]
        exact P1 i j hji hint hjs
      · have hj : j = s := by omega
        subst hj
        rcases eq_or_lt_of_le hji with rfl | hij
        · rw [cholStageVal_potrf nt j hsnt]
          exact F2
        · rw [cholStageVal_trsm nt j i hij hint]
          exact F4 i hij hint
    · intro i j hs1j hji hint
      rw [hstep]
      have hjnt : j < nt := by omega
      rcases eq_or_lt_of_le hji with rfl | hij
      · rw [cholStageVal_syrk nt s j (by omega) hint, F4 j (by omega) hint,
          P2 j j (by omega) le_rfl hint, syrkKernel, Finset.sum_range_succ,
          sub_sub]
      · rw [cholStageVal_gemm nt s i j (by omega) hij hint,
          F4 i (by omega) hint, F4 j (by omega) hjnt,
          P2 i j (by omega) hji hint, gemmKernel, Finset.sum_range_succ,
          sub_sub]

/-- On a positive-definite assembled input, the reassembled output factor
reproduces the assembled input exactly. -/
lemma cholesky_values_reconstruct {b n_tiles : ℕ} (A : ℕ → Matrix (Fin b) (Fin b) ℝ)
    (hPD : (assembleSym A n_tiles).PosDef) :
    assembleLow (right_looking_cholesky_values A n_tiles) n_tiles *
      (assembleLow (right_looking_cholesky_values A n_tiles) n_tiles).transpose
      = assembleSym A n_tiles := by
  obtain ⟨L, hLt, hLd, hLe⟩ := exists_lower_cholesky_prod (assembleSym A n_tiles) hPD
  set G : ℕ → ℕ → Matrix (Fin b) (Fin b) ℝ := fun i j =>
    if h : i < n_tiles ∧ j < n_tiles then
      Matrix.of (fun a d => L (⟨i, h.1⟩, a) (⟨j, h.2⟩, d)) else 0 with hGdef
  have hGapp : ∀ (i j : Fin n_tiles) (a d : Fin b),
      G (i : ℕ) (j : ℕ) a d = L (i, a) (j, d) := by
    intro i j a d
    simp only [hGdef]
    rw [dif_pos ⟨i.isLt, j.isLt⟩]
    simp [Matrix.of_apply, Fin.eta]
  have hGt : ∀ k, k < n_tiles → LowerTri (G k k) := by
    intro k hk a d had
    have := hGapp ⟨k, hk⟩ ⟨k, hk⟩ a d
    simp only [] at this
    rw [this]
    exact hLt _ _ (Or.inr ⟨rfl, had⟩)
  have hGd : ∀ k, k < n_tiles → PosDiag (G k k) := by
    intro k hk a
    have := hGapp ⟨k, hk⟩ ⟨k, hk⟩ a a
    simp only [] at this
    rw [this]
    exact hLd _
  have hA : ∀ i j, j ≤ i → i < n_tiles →
      A (i * n_tiles + j) = ∑ c ∈ Finset.range (j + 1),
        G i c * (G j c).transpose := by
    intro i j hji hint
    have hjnt : j < n_tiles := by omega
    ext a d
    have h1 : A (i * n_tiles + j) a d
        = (L * L.transpose) ((⟨i, hint⟩ : Fin n_tiles), a) ((⟨j, hjnt⟩ : Fin n_tiles), d) := by
      rw [hLe]
      rw [assembleSym]
      simp only [Matrix.of_apply]
      rw [if_pos (by exact hji : (⟨j, hjnt⟩ : Fin n_tiles) ≤ ⟨i, hint⟩)]
    rw [h1, Matrix.mul_apply]
    have h2 : (∑ r : Fin n_tiles × Fin b,
        L (⟨i, hint⟩, a) r * L.transpose r (⟨j, hjnt⟩, d))
        = ∑ c : Fin n_tiles, ∑ l : Fin b,
          L (⟨i, hint⟩, a) (c, l) * L (⟨j, hjnt⟩, d) (c, l) := by
      rw [Fintype.sum_prod_type]
      simp only [Matrix.transpose_apply]
    rw [h2]
    have h3 : ∀ c : Fin n_tiles, (∑ l : Fin b,
        L (⟨i, hint⟩, a) (c, l) * L (⟨j, hjnt⟩, d) (c, l))
        = (G i (c : ℕ) * (G j (c : ℕ)).transpose) a d := by
      intro c
      rw [Matrix.mul_apply]
      congr 1
      funext l
      rw [Matrix.transpose_apply, hGapp ⟨i, hint⟩ c a l, hGapp ⟨j, hjnt⟩ c d l]
    rw [Finset.sum_congr rfl fun c _ => h3 c]
    rw [Fin.sum_univ_eq_sum_range (fun cv => (G i cv * (G j cv).transpose) a d) n_tiles]
    have h4 : ∀ cv ∈ Finset.Ico (j + 1) n_tiles,
        (G i cv * (G j cv).transpose) a d = 0 := by
      intro cv hcv
      rw [Finset.mem_Ico] at hcv
      rw [Matrix.mul_apply]
      refine Finset.sum_eq_zero fun l _ => ?_
      rw [Matrix.transpose_apply, hGapp ⟨j, hjnt⟩ ⟨cv, hcv.2⟩ d l]
      rw [hLt ((⟨j, hjnt⟩ : Fin n_tiles), d) ((⟨cv, hcv.2⟩ : Fin n_tiles), l)
        (Or.inl (by exact hcv.1 : (⟨j, hjnt⟩ : Fin n_tiles) < ⟨cv, hcv.2⟩)), mul_zero]
    rw [Finset.range_eq_Ico,
      ← Finset.sum_Ico_consecutive _ (by omega : 0 ≤ j + 1) (by omega : j + 1 ≤ n_tiles),
      Finset.sum_congr rfl h4, Finset.sum_const_zero, add_zero,
      ← Finset.range_eq_Ico, Matrix.sum_apply]
  obtain ⟨P1, -⟩ := cholesky_invariant n_tiles A G hGt hGd hA n_tiles le_rfl
  have hout : ∀ i j, j ≤ i → i < n_tiles →
      right_looking_cholesky_values A n_tiles (i * n_tiles + j) = G i j := by
    intro i j hji hint
    exact P1 i j hji hint (by omega)
  have hasm : assembleLow (right_looking_cholesky_values A n_tiles) n_tiles = L := by
    ext p q
    rw [assembleLow]
    simp only [Matrix.of_apply]
    by_cases hcond : q.1 < p.1 ∨ (q.1 = p.1 ∧ q.2 ≤ p.2)
    · rw [if_pos hcond]
      have hvle : (q.1 : ℕ) ≤ (p.1 : ℕ) := by
        rcases hcond with h | ⟨h, -⟩
        · exact (Fin.lt_def.mp h).le
        · exact le_of_eq (congrArg Fin.val h)
      rw [hout (p.1 : ℕ) (q.1 : ℕ) hvle p.1.isLt, hGapp p.1 q.1 p.2 q.2]
    · rw [if_neg hcond]
      rw [not_or, not_and_or] at hcond
      obtain ⟨h1, h2⟩ := hcond
      symm
      apply hLt
      rcases lt_or_eq_of_le (not_lt.mp h1) with h | h
      · exact Or.inl h
      · rcases h2 with h2 | h2
        · exact absurd h.symm h2
        · exact Or.inr ⟨h, not_le.mp h2⟩
  rw [hasm]
  exact hLe

/-- With a single tile the whole algorithm is one POTRF on slot 0: the result
grid holds the dense kernel of the whole matrix there and is untouched
elsewhere. -/
lemma cholesky_values_single_tile {b : ℕ} (A1 : ℕ → Matrix (Fin b) (Fin b) ℝ) :
    ∀ s : ℕ, right_looking_cholesky_values A1 1 s
      = if s = 0 then potrfKernel (A1 0) else A1 s := by
  intro s
  have h1 : List.range 1 = [0] := rfl
  have h2 : List.range' 1 (1 - 1) = ([] : List ℕ) := rfl
  simp only [right_looking_cholesky_values, h1, List.foldl_cons, List.foldl_nil,
    cholStageVal, h2]
  norm_num [Function.update_apply]

/-- C3: for every tile size b and tile count, if the symmetric matrix
assembled from the input tile grid is positive definite, the factor L
reassembled from the output tiles of right_looking_cholesky_tiled_mkl
satisfies L * L^T = A exactly (exact-real kernels, the file's tolerance
convention, for every tile size, covering 1, 2 and N); and in the single-tile
case the trace is exactly one factorize invocation on the one tile, whose
result is the plain dense kernel applied to the whole matrix, all other slots
untouched. -/
theorem cholesky_tiled_reconstructs {b n_tiles : ℕ}
    (A : ℕ → Matrix (Fin b) (Fin b) ℝ)
    (hPD : (assembleSym A n_tiles).PosDef) :
    assembleLow (right_looking_cholesky_values A n_tiles) n_tiles *
      (assembleLow (right_looking_cholesky_values A n_tiles) n_tiles).transpose
      = assembleSym A n_tiles
    ∧ right_looking_cholesky_tiled_mkl 1 = [potrfInv 0]
    ∧ ∀ (A1 : ℕ → Matrix (Fin b) (Fin b) ℝ) (s : ℕ),
        right_looking_cholesky_values A1 1 s
          = if s = 0 then potrfKernel (A1 0) else A1 s :=
  ⟨cholesky_values_reconstruct A hPD, by decide,
    fun A1 s => cholesky_values_single_tile A1 s⟩

/-- Witness: the one-tile grid holding the 1 x 1 matrix [1] assembles to a
positive-definite matrix, and the C3 theorem applies to it. -/
theorem cholesky_tiled_reconstructs_witness :
    (assembleSym (fun _ : ℕ => unit_tile) 1).PosDef
    ∧ (assembleLow (right_looking_cholesky_values (fun _ : ℕ => unit_tile) 1) 1 *
      (assembleLow
        (right_looking_cholesky_values (fun _ : ℕ => unit_tile) 1) 1).transpose
      = assembleSym (fun _ : ℕ => unit_tile) 1
    ∧ right_looking_cholesky_tiled_mkl 1 = [potrfInv 0]
    ∧ ∀ (A1 : ℕ → Matrix (Fin 1) (Fin 1) ℝ) (s : ℕ),
        right_looking_cholesky_values A1 1 s
          = if s = 0 then potrfKernel (A1 0) else A1 s) := by
  have hsym : assembleSym (fun _ : ℕ => unit_tile) 1
      = Matrix.diagonal (fun _ : Fin 1 × Fin 1 => (1 : ℝ)) := by
    ext p q
    rw [Subsingleton.elim q p]
    simp [assembleSym, unit_tile, Matrix.diagonal_apply_eq, Matrix.of_apply]
  have hPD : (assembleSym (fun _ : ℕ => unit_tile) 1).PosDef := by
    rw [hsym]
    exact Matrix.PosDef.diagonal fun _ => one_pos
  exact ⟨hPD, cholesky_tiled_reconstructs (fun _ : ℕ => unit_tile) hPD⟩

end GPXPy
